import Mathlib

/-!
Verification of the session-recording / flow-graph assembly core of the
`agent.modeler` package (files `events.py`, `selectors.py`, `graph.py`,
`recorder.py`, `llm.py`).

The Python code is shallowly embedded: Python dicts that preserve insertion
order become association lists (`List (String × _)`), Python floats used only
as comparable scores become rationals, `datetime.fromisoformat` becomes an
executable acceptance model, and the network call to the LLM provider becomes
an explicit outcome parameter.  Python truthiness of strings ("" is falsy) and
of `Optional` values is modelled explicitly wherever the source relies on it.
-/

/-- JSON-like values, the codomain of the `to_dict` serializers. -/
inductive Json where
  | null : Json
  | str (s : String) : Json
  | num (q : ℚ) : Json
  | arr (xs : List Json) : Json
  | obj (fields : List (String × Json)) : Json

/-- `some s` with `s` nonempty; models Python truthiness of an optional string
(`None` and `""` are both falsy). -/
def optTruthy : Option String → Bool
  | none => false
  | some s => s ≠ ""

/-- Python `str.strip()`: drop whitespace from both ends.  Implemented over
the character list so that it reduces inside the kernel (the library's
`String.trim` walks byte positions and does not). -/
def pyStrip (s : String) : String :=
  String.mk (((s.toList.dropWhile Char.isWhitespace).reverse.dropWhile
    Char.isWhitespace).reverse)

/-- Python `str.startswith` over character lists. -/
def pyStartsWith (s pfx : String) : Bool := pfx.toList.isPrefixOf s.toList

/-- Drop the first `n` characters (Python `s[n:]`), over character lists. -/
def pyDrop (s : String) (n : Nat) : String := String.mk (s.toList.drop n)

/-- First-match lookup in an insertion-ordered association list (Python
`d.get(k)` / `d[k]`). -/
def alookup {α : Type} : List (String × α) → String → Option α
  | [], _ => none
  | (k, v) :: rest, key => if k = key then some v else alookup rest key

/-- Python `d[k] = v`: replace the (first) binding in place when the key is
present, otherwise append the new binding (dicts keep insertion order). -/
def aset {α : Type} : List (String × α) → String → α → List (String × α)
  | [], key, v => [(key, v)]
  | (k, w) :: rest, key, v =>
    if k = key then (k, v) :: rest else (k, w) :: aset rest key v

/-- Python `d.setdefault(k, v)`: append `(k, v)` only when `k` is absent. -/
def asetdefault {α : Type} (l : List (String × α)) (key : String) (v : α) :
    List (String × α) :=
  match alookup l key with
  | some _ => l
  | none => l ++ [(key, v)]

/-- Keys of an association list, in insertion order. -/
def akeys {α : Type} (l : List (String × α)) : List String := l.map Prod.fst

theorem alookup_aset_self {α : Type} (l : List (String × α)) (k : String) (v : α) :
    alookup (aset l k v) k = some v := by
  induction l with
  | nil => simp [aset, alookup]
  | cons p rest ih =>
    obtain ⟨k', w⟩ := p
    by_cases h : k' = k <;> simp [aset, alookup, h, ih]

theorem alookup_aset_ne {α : Type} (l : List (String × α)) (k k' : String) (v : α)
    (h : k' ≠ k) : alookup (aset l k v) k' = alookup l k' := by
  have hne : ¬ k = k' := fun hh => h hh.symm
  induction l with
  | nil => simp [aset, alookup, hne]
  | cons p rest ih =>
    obtain ⟨k₀, w⟩ := p
    by_cases h0 : k₀ = k
    · subst h0
      simp [aset, alookup, hne]
    · by_cases h1 : k₀ = k' <;> simp [aset, alookup, h0, h1, h, hne, ih]

theorem mem_aset {α : Type} (l : List (String × α)) (k : String) (v : α)
    (p : String × α) (hp : p ∈ aset l k v) : p = (k, v) ∨ p ∈ l := by
  induction l with
  | nil => simpa [aset] using hp
  | cons q rest ih =>
    obtain ⟨k₀, w⟩ := q
    by_cases h0 : k₀ = k
    · subst h0
      rw [aset, if_pos rfl] at hp
      rcases List.mem_cons.mp hp with h | h
      · exact Or.inl h
      · exact Or.inr (List.mem_cons_of_mem _ h)
    · rw [aset, if_neg h0] at hp
      rcases List.mem_cons.mp hp with h | h
      · exact Or.inr (by simp [h])
      · rcases ih h with h' | h'
        · exact Or.inl h'
        · exact Or.inr (List.mem_cons_of_mem _ h')

theorem mem_asetdefault {α : Type} (l : List (String × α)) (k : String) (v : α)
    (p : String × α) (hp : p ∈ asetdefault l k v) : p = (k, v) ∨ p ∈ l := by
  unfold asetdefault at hp
  cases h : alookup l k with
  | some w => rw [h] at hp; exact Or.inr hp
  | none =>
    rw [h] at hp
    rcases List.mem_append.mp hp with h' | h'
    · exact Or.inr h'
    · simp at h'; exact Or.inl (by simp [h'])

theorem aset_length_of_mem {α : Type} (l : List (String × α)) (k : String) (v : α)
    (h : k ∈ akeys l) : (aset l k v).length = l.length := by
  induction l with
  | nil => simp [akeys] at h
  | cons p rest ih =>
    obtain ⟨k₀, w⟩ := p
    by_cases h0 : k₀ = k
    · simp [aset, h0]
    · simp [akeys] at h
      rcases h with h | h
      · exact absurd h.symm (by simpa using h0)
      · simp [aset, h0, ih (by simpa [akeys] using h)]

/-! ## events.py -/

/-- `ActionType` enum from events.py. -/
inductive ActionType where
  | navigate | click | input | wait_for | assertion | other
  deriving DecidableEq, Repr

/-- `.value` of the `ActionType` string enum.  The Python member named
`ASSERT` is called `assertion` here because `assert` is reserved in Lean. -/
def ActionType.value : ActionType → String
  | .navigate => "navigate"
  | .click => "click"
  | .input => "input"
  | .wait_for => "wait_for"
  | .assertion => "assert"
  | .other => "other"

/-- `DomSnapshot` dataclass from events.py. -/
structure DomSnapshot where
  tag : String
  id : Option String := none
  classes : List String := []
  role : Option String := none
  name : Option String := none
  text : Option String := none
  data_attributes : List (String × String) := []
  xpath : Option String := none
  css_path : Option String := none
  deriving DecidableEq, Repr

/-- The raw `dom` dict of a browser-use payload, as read by
`DomSnapshot.from_browser_use_payload`. -/
structure DomPayload where
  tag : Option String := none
  attributes : List (String × String) := []
  classList : List String := []
  accessibleName : Option String := none
  innerText : Option String := none
  xpath : Option String := none
  cssPath : Option String := none
  deriving DecidableEq, Repr

/-- `DomSnapshot.from_browser_use_payload`: lifts `data-` attributes into
`data_attributes` with the prefix stripped, defaults `tag` to "div". -/
def DomSnapshot.from_browser_use_payload (p : DomPayload) : DomSnapshot :=
  { tag := p.tag.getD "div"
    id := alookup p.attributes "id"
    classes := p.classList
    role := alookup p.attributes "role"
    name := p.accessibleName
    text := p.innerText
    data_attributes :=
      (p.attributes.filter (fun kv => pyStartsWith kv.1 "data-")).map
        (fun kv => (pyDrop kv.1 5, kv.2))
    xpath := p.xpath
    css_path := p.cssPath }

/-- `BrowserContext` dataclass from events.py. -/
structure BrowserContext where
  url : String
  frame : Option String := none
  title : Option String := none
  deriving DecidableEq, Repr

/-- The free-form `payload` mapping carried on an `ActionEvent`.  The core
reads only the `selector` hint; everything else is opaque extra data. -/
structure EventPayload where
  selector : Option String := none
  extra : List (String × String) := []
  deriving DecidableEq, Repr

/-- Value of `occurred_at`: either the result of a successful
`datetime.fromisoformat` on the payload string, or `datetime.utcnow()`
at ingestion time (represented by an abstract clock reading). -/
inductive DateTime where
  | parsed (s : String)
  | current (clock : Int)
  deriving DecidableEq, Repr

/-- `FlowIntent` dataclass from events.py (confidence is a float used only
for comparison, modelled as a rational). -/
structure FlowIntent where
  summary : String
  semantic_action : Option String := none
  user_value : Option String := none
  confidence : ℚ := mkRat 1 2
  deriving DecidableEq, Repr

def optStrJson : Option String → Json
  | none => Json.null
  | some s => Json.str s

/-- `FlowIntent.to_payload` from events.py. -/
def FlowIntent.to_payload (i : FlowIntent) : Json :=
  Json.obj
    [("summary", Json.str i.summary),
     ("semantic_action", optStrJson i.semantic_action),
     ("user_value", optStrJson i.user_value),
     ("confidence", Json.num i.confidence)]

/-- `ActionEvent` dataclass from events.py. -/
structure ActionEvent where
  event_id : String
  order : Nat
  occurred_at : DateTime
  type : ActionType
  context : BrowserContext
  dom_snapshot : Option DomSnapshot := none
  payload : EventPayload := {}
  deriving DecidableEq, Repr

/-- `ActionEvent.short_description`: the target piece is
`f" {tag} {ident}".strip()` where `ident` is the first truthy of
`dom_snapshot.id` and `dom_snapshot.name` (Python `or`), and the arrow
suffix is appended only when the target string is nonempty (Python
string truthiness in `target and f' → {target}'`). -/
def ActionEvent.short_description (e : ActionEvent) : String :=
  let target :=
    match e.dom_snapshot with
    | none => ""
    | some snap =>
      let ident :=
        match snap.id with
        | some i => if i ≠ "" then i else (snap.name.getD "")
        | none => snap.name.getD ""
      pyStrip (" " ++ snap.tag ++ " " ++ ident)
  e.type.value ++ (if target = "" then "" else " → " ++ target)

/-! ## selectors.py -/

/-- Subtraction on `ℚ` written out on numerators and denominators.  The
library's `Rat.sub` is `@[irreducible]`, which would block concrete
evaluation inside proofs; this definition is extensionally equal (see
`ratSub_eq`) and reduces. -/
def ratSub (a b : ℚ) : ℚ :=
  mkRat (a.num * (b.den : ℤ) - b.num * (a.den : ℤ)) (a.den * b.den)

theorem ratSub_eq (a b : ℚ) : ratSub a b = a - b := by
  rw [ratSub, Rat.mkRat_eq_div]
  have ha : ((a.den : ℚ)) ≠ 0 := by
    exact_mod_cast a.den_ne_zero
  have hb : ((b.den : ℚ)) ≠ 0 := by
    exact_mod_cast b.den_ne_zero
  conv_rhs => rw [← Rat.num_div_den a, ← Rat.num_div_den b]
  rw [div_sub_div _ _ ha hb]
  push_cast
  ring_nf

/-- `SelectorCandidate` dataclass (score is a float used only for ranking,
modelled as a rational). -/
structure SelectorCandidate where
  value : String
  score : ℚ
  origin : String
  deriving DecidableEq, Repr

/-- `SelectorCandidate.to_dict`. -/
def SelectorCandidate.to_dict (c : SelectorCandidate) : Json :=
  Json.obj
    [("value", Json.str c.value), ("score", Json.num c.score),
     ("origin", Json.str c.origin)]

/-- `SelectorMiner` constructor arguments: the configurable heuristic
weights. -/
structure SelectorMiner where
  weight_id : ℚ := 1
  weight_role : ℚ := mkRat 9 10
  weight_text : ℚ := mkRat 7 10
  weight_css : ℚ := mkRat 3 10
  deriving DecidableEq, Repr

/-- Candidate generated for an explicit selector hint found in the event
payload (`if explicit_selector:` — Python string truthiness). -/
def hintCandidates (explicit : Option String) : List SelectorCandidate :=
  match explicit with
  | some s => if s ≠ "" then [⟨s, mkRat 11 10, "browser_use"⟩] else []
  | none => []

/-- Candidate generated from the DOM id (`if snapshot.id:`). -/
def idCandidates (m : SelectorMiner) (snap : DomSnapshot) : List SelectorCandidate :=
  match snap.id with
  | some i => if i ≠ "" then [⟨"#" ++ i, m.weight_id, "dom_id"⟩] else []
  | none => []

/-- Candidate generated from ARIA role + accessible name
(`if snapshot.role and snapshot.name:`). -/
def roleCandidates (m : SelectorMiner) (snap : DomSnapshot) : List SelectorCandidate :=
  if optTruthy snap.role && optTruthy snap.name then
    [⟨"getByRole(\x27" ++ snap.role.getD "" ++ "\x27, \x7b name: \x27" ++
        snap.name.getD "" ++ "\x27 \x7d)", m.weight_role, "aria_role"⟩]
  else []

/-- Candidate generated from trimmed visible text of length 1..80
(`if snapshot.text:` then the length guard; the Python
`.replace("'", "\'")` is the identity, since `"\'"` is just `"'"`). -/
def textCandidates (m : SelectorMiner) (snap : DomSnapshot) : List SelectorCandidate :=
  if optTruthy snap.text then
    let text := pyStrip (snap.text.getD "")
    if 0 < text.length ∧ text.length ≤ 80 then
      [⟨"getByText(\x27" ++ text ++ "\x27)", m.weight_text, "text"⟩]
    else []
  else []

/-- Candidate from the captured CSS path, or else from up to three class
names (the `if snapshot.css_path: ... elif snapshot.classes:` branch). -/
def cssCandidates (m : SelectorMiner) (snap : DomSnapshot) : List SelectorCandidate :=
  if optTruthy snap.css_path then
    [⟨snap.css_path.getD "", m.weight_css, "css_path"⟩]
  else if snap.classes ≠ [] then
    let class_selector := String.intercalate "." (snap.classes.take 3)
    if class_selector ≠ "" then
      [⟨snap.tag ++ "." ++ class_selector, m.weight_css, "classlist"⟩]
    else []
  else []

/-- Candidate from the XPath (`if snapshot.xpath:`). -/
def xpathCandidates (m : SelectorMiner) (snap : DomSnapshot) : List SelectorCandidate :=
  if optTruthy snap.xpath then
    [⟨snap.xpath.getD "", ratSub m.weight_css (mkRat 1 10), "xpath"⟩]
  else []

/-- The `candidates` list built by `SelectorMiner._rank`, in generation
order. -/
def rawCandidates (m : SelectorMiner) (snap : DomSnapshot)
    (explicit : Option String) : List SelectorCandidate :=
  hintCandidates explicit ++ idCandidates m snap ++ roleCandidates m snap ++
    textCandidates m snap ++ cssCandidates m snap ++ xpathCandidates m snap

/-- Stable insertion of a candidate into a list sorted descending by score:
an element is placed before the first strictly smaller score, after equal
ones encountered later in the original list have been placed.  Together with
`sortByScoreDesc` this computes the same list as Python's stable
`sorted(candidates, key=lambda c: c.score, reverse=True)`. -/
def insertByScore (c : SelectorCandidate) :
    List SelectorCandidate → List SelectorCandidate
  | [] => [c]
  | x :: xs => if x.score ≤ c.score then c :: x :: xs else x :: insertByScore c xs

/-- Stable descending sort by score (model of `sorted(..., reverse=True)`). -/
def sortByScoreDesc : List SelectorCandidate → List SelectorCandidate
  | [] => []
  | c :: cs => insertByScore c (sortByScoreDesc cs)

/-- The dedup loop at the end of `_rank`: keep the first occurrence of each
`value` while walking the sorted list, tracking a `seen` set. -/
def dedupByValue : List SelectorCandidate → List String → List SelectorCandidate
  | [], _ => []
  | c :: cs, seen =>
    if c.value ∈ seen then dedupByValue cs seen
    else c :: dedupByValue cs (c.value :: seen)

/-- `SelectorMiner._rank`. -/
def SelectorMiner.rank (m : SelectorMiner) (snap : DomSnapshot)
    (explicit : Option String) : List SelectorCandidate :=
  dedupByValue (sortByScoreDesc (rawCandidates m snap explicit)) []

/-- `SelectorMiner.mine`: empty without a DOM snapshot, otherwise `_rank`
on the snapshot and the payload's `selector` hint. -/
def SelectorMiner.mine (m : SelectorMiner) (e : ActionEvent) :
    List SelectorCandidate :=
  match e.dom_snapshot with
  | none => []
  | some snap => m.rank snap e.payload.selector

/-! ## graph.py -/

/-- `FlowNode` dataclass.  `metadata` is declared `Dict[str, str]` in the
source but actually stores the serialized candidate list, so it is modelled
as a JSON object's field list. -/
structure FlowNode where
  node_id : String
  event : ActionEvent
  selectors : List String
  intent : FlowIntent
  metadata : List (String × Json) := []

/-- `FlowNode.to_dict`. -/
def FlowNode.to_dict (n : FlowNode) : Json :=
  Json.obj
    [("node_id", Json.str n.node_id),
     ("event", Json.obj
        [("event_id", Json.str n.event.event_id),
         ("order", Json.num n.event.order),
         ("type", Json.str n.event.type.value),
         ("url", Json.str n.event.context.url),
         ("frame", optStrJson n.event.context.frame),
         ("title", optStrJson n.event.context.title),
         ("payload", Json.obj
            (("selector", optStrJson n.event.payload.selector) ::
              n.event.payload.extra.map (fun kv => (kv.1, Json.str kv.2))))]),
     ("selectors", Json.arr (n.selectors.map Json.str)),
     ("intent", n.intent.to_payload),
     ("metadata", Json.obj n.metadata)]

/-- `FlowGraph` state: `_nodes`, `_edges` (insertion-ordered dicts) and the
`_entry` / `_tail` cursors. -/
structure FlowGraph where
  nodes : List (String × FlowNode) := []
  edges : List (String × List String) := []
  entry : Option String := none
  tail : Option String := none

/-- `FlowGraph()` — the empty graph. -/
def FlowGraph.empty : FlowGraph := {}

/-- Successor list of a node id: `self._edges.get(node_id, [])`. -/
def FlowGraph.succs (edges : List (String × List String)) (k : String) :
    List String :=
  (alookup edges k).getD []

/-- `FlowGraph.add_node`.  When `self._tail` is truthy but absent from
`_edges` (possible after `prune_after` removed a node that lay on a cycle
through itself), the Python `self._edges[self._tail]` raises `KeyError`
after `_nodes`, `_edges` and `_entry` were already mutated; the model
returns exactly that partially-mutated state in this branch. -/
def FlowGraph.add_node (g : FlowGraph) (node : FlowNode) : FlowGraph :=
  let nodes := aset g.nodes node.node_id node
  let edges0 := asetdefault g.edges node.node_id []
  let entry := match g.entry with | none => some node.node_id | some e => some e
  match g.tail with
  | none => { nodes, edges := edges0, entry, tail := some node.node_id }
  | some t =>
    if t = "" then
      -- Python `if self._tail and ...`: an empty-string tail is falsy,
      -- so no chaining edge is added.
      { nodes, edges := edges0, entry, tail := some node.node_id }
    else
      match alookup edges0 t with
      | none => { nodes, edges := edges0, entry, tail := g.tail }
      | some l =>
        let edges1 :=
          if node.node_id ∈ l then edges0 else aset edges0 t (l ++ [node.node_id])
        { nodes, edges := edges1, entry, tail := some node.node_id }

/-- `FlowGraph.connect`: idempotent edge insertion. -/
def FlowGraph.connect (g : FlowGraph) (source_id target_id : String) : FlowGraph :=
  let edges0 := asetdefault g.edges source_id []
  let l := (alookup edges0 source_id).getD []
  if target_id ∈ l then { g with edges := edges0 }
  else { g with edges := aset edges0 source_id (l ++ [target_id]) }

/-- `FlowGraph.remove_edge`: remove the first occurrence of the target
(`list.remove`); silent no-op when the edge is absent. -/
def FlowGraph.remove_edge (g : FlowGraph) (source_id target_id : String) :
    FlowGraph :=
  match alookup g.edges source_id with
  | none => g
  | some l =>
    if target_id ∈ l then { g with edges := aset g.edges source_id (l.erase target_id) }
    else g

/-- Replace the first occurrence of `old` by `new`
(`neighbours[neighbours.index(old)] = new`). -/
def replaceFirst : List String → String → String → List String
  | [], _, _ => []
  | x :: xs, old, new =>
    if x = old then new :: xs else x :: replaceFirst xs old new

/-- `FlowGraph.rewire`: in-place replacement of one successor; silent no-op
when `old_target` is not a successor of `source_id`. -/
def FlowGraph.rewire (g : FlowGraph) (source_id old_target new_target : String) :
    FlowGraph :=
  match alookup g.edges source_id with
  | none => g
  | some l =>
    if old_target ∈ l then
      { g with edges := aset g.edges source_id (replaceFirst l old_target new_target) }
    else g

/-- All successor ids mentioned anywhere in the adjacency map; every id the
DFS of `prune_after` can ever add to its visited set lies in this list. -/
def allTargets (edges : List (String × List String)) : List String :=
  (edges.map Prod.snd).flatten

/-- The `for nxt in self._edges.get(start, [])` loop of `_collect`: walk a
successor list, adding unvisited nodes to the shared visited set `acc` and
expanding each freshly added node depth-first via `expand`. -/
def stepList (expand : String → List String → List String) :
    List String → List String → List String
  | [], acc => acc
  | x :: xs, acc =>
    if x ∈ acc then stepList expand xs acc
    else stepList expand xs (expand x acc)

/-- Depth-first expansion of a freshly visited node — the recursive
`_collect(nxt, acc)` call right after `acc.add(nxt)`.  `fuel` bounds the
recursion depth; `prune_after` supplies more fuel than the visited set can
ever grow, so the bound is never reached there. -/
def expandFuel (E : List (String × List String)) :
    Nat → String → List String → List String
  | 0, x, acc => x :: acc
  | n + 1, x, acc => stepList (expandFuel E n) (FlowGraph.succs E x) (x :: acc)

/-- The whole `_collect(start, acc)` call of `prune_after`: the start node
itself is *not* added to the visited set. -/
def collect (E : List (String × List String)) (fuel : Nat) (start : String)
    (acc : List String) : List String :=
  stepList (expandFuel E fuel) (FlowGraph.succs E start) acc

/-- `FlowGraph.prune_after`: collect the downstream reachable set, drop
those nodes from the node and adjacency maps, strip dangling successor
references and reset `tail` when it was removed. -/
def FlowGraph.prune_after (g : FlowGraph) (node_id : String) : FlowGraph :=
  let discard := collect g.edges ((allTargets g.edges).length + 1) node_id []
  { nodes := g.nodes.filter (fun p => p.1 ∉ discard)
    edges := (g.edges.filter (fun p => p.1 ∉ discard)).map
      (fun p => (p.1, p.2.filter (fun t => t ∉ discard)))
    entry := g.entry
    tail := match g.tail with
      | some t => if t ∈ discard then some node_id else some t
      | none => none }

/-- `FlowGraph.to_dict`. -/
def FlowGraph.to_dict (g : FlowGraph) : Json :=
  Json.obj
    [("entry", optStrJson g.entry),
     ("nodes", Json.obj (g.nodes.map (fun p => (p.1, p.2.to_dict)))),
     ("edges", Json.obj (g.edges.map (fun p => (p.1, Json.arr (p.2.map Json.str)))))]

/-! ## llm.py (FlowAnnotator.annotate) -/

/-- Outcome of the `_build_payload` / `_call_llm` / `_parse_response` chain
inside the `try:` block of `FlowAnnotator.annotate`.  The network and SDK
interaction is nondeterministic, so it is passed in as a parameter:
`raised` covers any exception escaping `_call_llm` or `_build_payload`
(caught by the outer `except`), `parseFailed` the inner fallback of
`_parse_response`, and `parsedOk` a successfully parsed JSON reply
(`summary = none` models a reply without a "summary" key, handled by
`parsed.get("summary", fallback_summary)`). -/
inductive LlmCallResult where
  | raised
  | parseFailed
  | parsedOk (summary : Option String) (semantic_action : Option String)
      (user_value : Option String) (confidence : ℚ)
  deriving DecidableEq, Repr

/-- `FlowAnnotator.annotate`: `apiKey` is `os.getenv(...)` captured at
construction (`none` models a missing key; Python `if not self._api_key`
also treats an empty string as missing). -/
def FlowAnnotator.annotate (apiKey : Option String) (e : ActionEvent)
    (call : LlmCallResult) : FlowIntent :=
  let base_summary := e.short_description
  if ¬ optTruthy apiKey then
    { summary := base_summary, semantic_action := none, user_value := none,
      confidence := mkRat 2 10 }
  else
    match call with
    | .raised =>
      { summary := base_summary, semantic_action := none, user_value := none,
        confidence := mkRat 1 10 }
    | .parseFailed =>
      { summary := base_summary, semantic_action := none, user_value := none,
        confidence := mkRat 3 10 }
    | .parsedOk summary sa uv conf =>
      { summary := summary.getD base_summary, semantic_action := sa,
        user_value := uv, confidence := conf }

/-- The result was produced by one of the three fallback branches of
`annotate` rather than by a genuine parsed inference. -/
def fallbackOutcome (apiKey : Option String) (call : LlmCallResult) : Prop :=
  ¬ optTruthy apiKey = true ∨ call = .raised ∨ call = .parseFailed

/-! ## recorder.py -/

/-- The raw browser-use event payload, restricted to the keys
`SessionRecorder._normalize_event` and `_resolve_action_type` read.  A
non-string `timestamp` behaves like an absent one (the code checks
`isinstance(timestamp, str)`), so `timestamp` is modelled as an optional
string.  `category` / `ptype` model the `category` and `type` keys. -/
structure RawPayload where
  event_id : Option String := none
  timestamp : Option String := none
  category : Option String := none
  ptype : Option String := none
  url : Option String := none
  frame : Option String := none
  title : Option String := none
  dom : Option DomPayload := none
  payload : EventPayload := {}
  deriving Repr

/-- Acceptance model of Python `datetime.fromisoformat`: a four-digit year,
dashes, two-digit month and day, optionally followed by a `T` or space and
time characters.  The claims depend only on some strings being rejected
(e.g. "not-a-date") and well-formed timestamps being accepted, not on the
exact grammar. -/
def isIsoDate (s : String) : Bool :=
  match s.toList with
  | y1 :: y2 :: y3 :: y4 :: '-' :: m1 :: m2 :: '-' :: d1 :: d2 :: rest =>
    ([y1, y2, y3, y4, m1, m2, d1, d2].all Char.isDigit) &&
      (match rest with
       | [] => true
       | c :: tl =>
         (c = 'T' || c = ' ') &&
           tl.all (fun ch => ch.isDigit || ch = ':' || ch = '.' ||
             ch = '+' || ch = '-'))
  | _ => false

/-- Model of `datetime.fromisoformat`: `none` means the call raises
`ValueError`. -/
def parseIso (s : String) : Option DateTime :=
  if isIsoDate s then some (DateTime.parsed s) else none

/-- Ambient inputs of one ingestion: the wall clock read by
`datetime.utcnow()` and the fresh identifier produced by `uuid4()`. -/
structure IngestEnv where
  clock : Int := 0
  freshId : String := "uuid"
  deriving Repr

/-- ASCII lowercase of one character; together with `lowerString` this
models Python `str.lower()` on the ASCII category names the synonym table
compares against. -/
def lowerChar (c : Char) : Char :=
  if 'A' ≤ c ∧ c ≤ 'Z' then Char.ofNat (c.toNat + 32) else c

/-- Model of Python `str.lower()` (ASCII). -/
def lowerString (s : String) : String := String.mk (s.toList.map lowerChar)

/-- `_resolve_action_type`: first truthy of `category` and `type` (Python
`or`, so an empty string falls through), lowercased, mapped through the
synonym table with fallback to `other`. -/
def resolveActionType (p : RawPayload) : ActionType :=
  let name :=
    lowerString
      (match p.category with
       | some c => if c ≠ "" then c else (match p.ptype with
          | some t => if t ≠ "" then t else "other"
          | none => "other")
       | none => match p.ptype with
          | some t => if t ≠ "" then t else "other"
          | none => "other")
  if name = "click" ∨ name = "press" then .click
  else if name = "input" ∨ name = "type" then .input
  else if name = "navigate" ∨ name = "goto" then .navigate
  else if name = "wait" ∨ name = "wait_for" then .wait_for
  else if name = "assert" ∨ name = "verify" then .assertion
  else .other

/-- `SessionRecorder._normalize_event`, after the `self._order` increment
(`ord` is the already-incremented counter value).  `Except.error` marks the
`ValueError` raised by `datetime.fromisoformat` on a present but malformed
`timestamp` string; every other input normalizes successfully. -/
def normalizeEvent (p : RawPayload) (ord : Nat) (env : IngestEnv) :
    Except String ActionEvent :=
  let occurred : Except String DateTime :=
    match p.timestamp with
    | some ts =>
      match parseIso ts with
      | some dt => .ok dt
      | none => .error "ValueError: invalid isoformat string"
    | none => .ok (DateTime.current env.clock)
  match occurred with
  | .error e => .error e
  | .ok occurred_at =>
    .ok
      { event_id :=
          (match p.event_id with
           | some s => if s ≠ "" then s else env.freshId
           | none => env.freshId)
        order := ord
        occurred_at := occurred_at
        type := resolveActionType p
        context := { url := p.url.getD "", frame := p.frame, title := p.title }
        dom_snapshot := p.dom.map DomSnapshot.from_browser_use_payload
        payload := p.payload }

/-- `SessionRecorder` state: the session-scoped `_order` counter and the
graph.  The recorder is constructed with the default miner and annotator. -/
structure RecorderState where
  order : Nat := 0
  graph : FlowGraph := {}

/-- `SessionRecorder.record_browser_use_event`.  The counter is incremented
before the timestamp is parsed, so an aborted ingestion (second component
`none`) still consumes an `order` value, exactly as in the source.
`apiKey`/`call` feed the annotator. -/
def recordBrowserUseEvent (st : RecorderState) (p : RawPayload)
    (env : IngestEnv) (apiKey : Option String) (call : LlmCallResult) :
    RecorderState × Option FlowNode :=
  let ord := st.order + 1
  match normalizeEvent p ord env with
  | .error _ => ({ st with order := ord }, none)
  | .ok action_event =>
    let selector_candidates := SelectorMiner.mine {} action_event
    let intent := FlowAnnotator.annotate apiKey action_event call
    let node : FlowNode :=
      { node_id := action_event.event_id
        event := action_event
        selectors := selector_candidates.map (·.value)
        intent := intent
        metadata :=
          [("selector_candidates",
            Json.arr (selector_candidates.map (·.to_dict)))] }
    ({ order := ord, graph := st.graph.add_node node }, some node)

/-- One operation applied to a session: ingest an event or prune the graph
after a node (the two mutations the recorder's owner performs). -/
inductive RecorderOp where
  | record (p : RawPayload) (env : IngestEnv)
  | prune (k : String)

/-- Run a list of operations on a recorder, collecting the successfully
ingested events in order (annotator runs with no credentials, as in a
default offline session). -/
def runOps : RecorderState → List RecorderOp → RecorderState × List FlowNode
  | st, [] => (st, [])
  | st, RecorderOp.record p env :: ops =>
    match recordBrowserUseEvent st p env none .raised with
    | (st', some node) => ((runOps st' ops).1, node :: (runOps st' ops).2)
    | (st', none) => runOps st' ops
  | st, RecorderOp.prune k :: ops =>
    runOps { st with graph := st.graph.prune_after k } ops

/-! ## General lemmas -/

theorem alookup_mem {α : Type} (l : List (String × α)) (k : String) (v : α)
    (h : alookup l k = some v) : (k, v) ∈ l := by
  induction l with
  | nil => simp [alookup] at h
  | cons p rest ih =>
    obtain ⟨k₀, w⟩ := p
    by_cases h0 : k₀ = k
    · subst h0
      simp [alookup] at h
      simp [h]
    · simp [alookup, h0] at h
      exact List.mem_cons_of_mem _ (ih h)

theorem alookup_map_snd {α β : Type} (l : List (String × α)) (f : α → β)
    (k : String) :
    alookup (l.map (fun p => (p.1, f p.2))) k = (alookup l k).map f := by
  induction l with
  | nil => simp [alookup]
  | cons p rest ih =>
    by_cases h : p.1 = k <;> simp [alookup, h, ih]

theorem alookup_filter_key {α : Type} (l : List (String × α))
    (ds : List String) (k : String) :
    alookup (l.filter (fun p => p.1 ∉ ds)) k =
      if k ∈ ds then none else alookup l k := by
  induction l with
  | nil => simp [alookup]
  | cons p rest ih =>
    simp only [decide_not] at ih ⊢
    rw [List.filter_cons]
    by_cases hm : p.1 ∈ ds
    · by_cases hk : p.1 = k
      · subst hk
        simp [hm, ih]
      · rw [if_neg (by simpa using hm), ih]
        by_cases hks : k ∈ ds <;> simp [hks, alookup, hk]
    · by_cases hk : p.1 = k
      · subst hk
        simp [hm, alookup]
      · simp [hm, alookup, hk, ih]

/-! ## Claim C1 (code bug): a malformed timestamp string aborts ingestion -/

/-- **C1.** The claim (and the spec's stated policy) says a malformed
`timestamp` is absorbed and replaced by the current time, so that it never
aborts ingestion; the unrecognized-category fallback to `other` and the
absent-timestamp fallback do behave that way.  But `_normalize_event` calls
`datetime.fromisoformat(timestamp)` unguarded whenever the field holds a
string, so a present-but-malformed timestamp string raises `ValueError` and
aborts the ingestion of the event: the first conjunct exhibits the abort,
the remaining conjuncts verify the two fallbacks the claim describes. -/
theorem normalize_event_raises_on_malformed_timestamp :
    normalizeEvent { timestamp := some "not-a-date" } 1 {} =
      .error "ValueError: invalid isoformat string" ∧
    (∀ r : Option FlowNode,
      (recordBrowserUseEvent {} { timestamp := some "not-a-date" } {} none
          .raised).2 = r → r = none) ∧
    resolveActionType { category := some "mystery-category" } = .other ∧
    (normalizeEvent { category := some "click" } 7 { clock := 42 }).toOption.map
        (fun ev => (ev.occurred_at, ev.type)) =
      some (DateTime.current 42, .click) := by
  refine ⟨rfl, ?_, by decide, by decide⟩
  intro r h
  rw [← h]
  rfl

/-! ## Claim C8: the annotator is total with low-confidence fallbacks -/

/-- **C8.** `annotate` is a total function of its inputs (it is defined for
every api-key state, event and call outcome); every result produced by one
of its fallback branches has confidence ≤ 0.3; with no credentials it
returns exactly confidence 0.2 and a summary equal to
`short_description`, which depends only on the event's type and DOM
target. -/
theorem annotate_total_with_fallbacks :
    (∀ (key : Option String) (e : ActionEvent) (call : LlmCallResult),
        ¬ optTruthy key = true →
        FlowAnnotator.annotate key e call =
          { summary := e.short_description, semantic_action := none,
            user_value := none, confidence := mkRat 2 10 }) ∧
    (∀ (key : Option String) (e : ActionEvent) (call : LlmCallResult),
        fallbackOutcome key call →
        (FlowAnnotator.annotate key e call).confidence ≤ mkRat 3 10) ∧
    (∀ e e' : ActionEvent, e.type = e'.type →
        e.dom_snapshot = e'.dom_snapshot →
        e.short_description = e'.short_description) := by
  refine ⟨?_, ?_, ?_⟩
  · intro key e call hk
    simp [FlowAnnotator.annotate, hk]
  · intro key e call hf
    by_cases hk : optTruthy key = true
    · rcases hf with h | h | h
      · exact absurd hk h
      · subst h; simp [FlowAnnotator.annotate, hk]; decide
      · simp [FlowAnnotator.annotate, hk, h]
    · simp [FlowAnnotator.annotate, hk]; decide
  · intro e e' ht hd
    simp [ActionEvent.short_description, ht, hd]

/-- Witness for C8: a concrete no-credential annotation and a concrete
raised-call annotation, both with confidence ≤ 0.3. -/
theorem annotate_total_with_fallbacks_witness :
    FlowAnnotator.annotate none
        { event_id := "e1", order := 1, occurred_at := .current 0,
          type := .click, context := { url := "u" } } .raised =
      { summary := "click", semantic_action := none, user_value := none,
        confidence := mkRat 2 10 } ∧
    (FlowAnnotator.annotate (some "sk-key")
        { event_id := "e1", order := 1, occurred_at := .current 0,
          type := .click, context := { url := "u" } } .raised).confidence ≤
      mkRat 3 10 := by
  constructor
  · have h := annotate_total_with_fallbacks.1 none
      { event_id := "e1", order := 1, occurred_at := .current 0,
        type := .click, context := { url := "u" } } .raised (by decide)
    rw [h]
    rfl
  · exact annotate_total_with_fallbacks.2.1 (some "sk-key")
      { event_id := "e1", order := 1, occurred_at := .current 0,
        type := .click, context := { url := "u" } } .raised (Or.inr (Or.inl rfl))

theorem alookup_append {α : Type} (l1 l2 : List (String × α)) (k : String) :
    alookup (l1 ++ l2) k =
      match alookup l1 k with
      | some v => some v
      | none => alookup l2 k := by
  induction l1 with
  | nil => simp [alookup]
  | cons p rest ih =>
    by_cases hp : p.1 = k <;> simp [alookup, hp, ih]

theorem alookup_asetdefault_self {α : Type} (l : List (String × α)) (k : String)
    (v : α) : ∃ w, alookup (asetdefault l k v) k = some w := by
  unfold asetdefault
  cases h : alookup l k with
  | some w => exact ⟨w, h⟩
  | none =>
    refine ⟨v, ?_⟩
    rw [alookup_append, h]
    simp [alookup]

/-- The `_nodes` map after `add_node` is always `aset nodes id node`,
whatever the tail / chaining branch taken. -/
theorem add_node_nodes (g : FlowGraph) (n : FlowNode) :
    (g.add_node n).nodes = aset g.nodes n.node_id n := by
  unfold FlowGraph.add_node
  cases g.tail with
  | none => rfl
  | some t =>
    dsimp only
    by_cases ht : t = ""
    · rw [if_pos ht]
    · rw [if_neg ht]
      cases alookup (asetdefault g.edges n.node_id []) t with
      | none => rfl
      | some l => by_cases hl : n.node_id ∈ l <;> simp [hl]

/-! ## Claim C10: duplicate node ids replace the node and self-loop the tail -/

/-- A minimal node used to drive the graph operations in concrete runs. -/
def mkNode (id : String) : FlowNode :=
  { node_id := id
    event :=
      { event_id := id, order := 1, occurred_at := .current 0, type := .other,
        context := { url := "" } }
    selectors := []
    intent := { summary := "" } }

/-- A raw browser-use payload carrying only an explicit event id. -/
def idOnlyPayload (id : String) : RawPayload := { event_id := some id }

/-- **C10.** Adding a node whose id is already present replaces the stored
node without growing the node map, and when that id is the current tail the
auto-chain guard compares the id against its own successor list, producing
a self-loop.  Concretely, recording two consecutive events with the same
caller-supplied `event_id` yields a one-node graph whose only edge is the
self-loop `E → E`. -/
theorem add_node_duplicate_id_self_loop :
    (∀ (g : FlowGraph) (n : FlowNode),
        n.node_id ∈ akeys g.nodes →
        (g.add_node n).nodes.length = g.nodes.length ∧
        alookup (g.add_node n).nodes n.node_id = some n ∧
        (g.tail = some n.node_id → n.node_id ≠ "" →
          n.node_id ∈ FlowGraph.succs (g.add_node n).edges n.node_id)) ∧
    (let st1 := (recordBrowserUseEvent {} (idOnlyPayload "E") {} none .raised).1
     let st2 := (recordBrowserUseEvent st1 (idOnlyPayload "E") {} none .raised).1
     akeys st2.graph.nodes = ["E"] ∧
       FlowGraph.succs st2.graph.edges "E" = ["E"]) := by
  constructor
  · intro g n hmem
    refine ⟨by rw [add_node_nodes]; exact aset_length_of_mem _ _ _ hmem,
      by rw [add_node_nodes]; exact alookup_aset_self _ _ _, ?_⟩
    intro htail hne
    unfold FlowGraph.add_node
    rw [htail]
    dsimp only
    rw [if_neg hne]
    obtain ⟨w, hw⟩ := alookup_asetdefault_self g.edges n.node_id ([] : List String)
    rw [hw]
    dsimp only
    by_cases hl : n.node_id ∈ w
    · rw [if_pos hl]
      simp [FlowGraph.succs, hw, hl]
    · rw [if_neg hl]
      simp [FlowGraph.succs, alookup_aset_self]
  · exact ⟨rfl, rfl⟩

/-- Witness for C10: the general replacement/self-loop part applied to a
concrete one-node graph whose tail id is re-added. -/
theorem add_node_duplicate_id_self_loop_witness :
    ((FlowGraph.empty.add_node (mkNode "a")).add_node (mkNode "a")).nodes.length =
        (FlowGraph.empty.add_node (mkNode "a")).nodes.length ∧
    "a" ∈ FlowGraph.succs
        ((FlowGraph.empty.add_node (mkNode "a")).add_node (mkNode "a")).edges "a" := by
  have h := (add_node_duplicate_id_self_loop.1 (FlowGraph.empty.add_node (mkNode "a"))
    (mkNode "a") (by decide))
  exact ⟨h.1, h.2.2 (by decide) (by decide)⟩

/-! ## Claim C9: the exact wire shape of to_dict -/

/-- Key list of a JSON object (in order); `none` for non-objects. -/
def jsonKeys : Json → Option (List String)
  | .obj fields => some (fields.map Prod.fst)
  | _ => none

/-- Field access inside a JSON object; `none` for non-objects. -/
def jfield : Json → String → Option Json
  | .obj fields, k => alookup fields k
  | _, _ => none

/-- **C9.** `FlowGraph.to_dict` produces exactly the wire shape
`{entry, nodes, edges}`: the top-level keys are literally those three, the
`nodes` object maps every node id to that node's projection (and nothing
else), every node projection carries exactly the keys
`{node_id, event, selectors, intent, metadata}` with the event object
keyed `{event_id, order, type, url, frame, title, payload}` and the intent
object keyed `{summary, semantic_action, user_value, confidence}`, and the
`edges` object maps each node id to exactly its ordered successor list.
This holds for every graph state, reachable or not. -/
theorem to_dict_wire_shape (g : FlowGraph) :
    jsonKeys g.to_dict = some ["entry", "nodes", "edges"] ∧
    jfield g.to_dict "entry" = some (optStrJson g.entry) ∧
    (∀ s, (jfield g.to_dict "nodes").bind (fun nodesObj => jfield nodesObj s) =
      (alookup g.nodes s).map FlowNode.to_dict) ∧
    (∀ n : FlowNode,
      jsonKeys n.to_dict =
        some ["node_id", "event", "selectors", "intent", "metadata"] ∧
      (jfield n.to_dict "event").bind jsonKeys =
        some ["event_id", "order", "type", "url", "frame", "title", "payload"] ∧
      (jfield n.to_dict "intent").bind jsonKeys =
        some ["summary", "semantic_action", "user_value", "confidence"] ∧
      jfield n.to_dict "selectors" = some (Json.arr (n.selectors.map Json.str))) ∧
    (∀ s, (jfield g.to_dict "edges").bind (fun edgesObj => jfield edgesObj s) =
      (alookup g.edges s).map (fun ts => Json.arr (ts.map Json.str))) := by
  refine ⟨rfl, rfl, ?_, ?_, ?_⟩
  · intro s
    show alookup (g.nodes.map (fun p => (p.1, p.2.to_dict))) s =
      (alookup g.nodes s).map FlowNode.to_dict
    exact alookup_map_snd g.nodes FlowNode.to_dict s
  · intro n
    exact ⟨rfl, rfl, rfl, rfl⟩
  · intro s
    show alookup (g.edges.map (fun p => (p.1, Json.arr (p.2.map Json.str)))) s =
      (alookup g.edges s).map (fun ts => Json.arr (ts.map Json.str))
    exact alookup_map_snd g.edges (fun ts => Json.arr (ts.map Json.str)) s

/-! ## Sorting and dedup lemmas for the selector miner -/

/-- Score-descending comparison used throughout:
`scoreGE a b` says `a`'s score is at least `b`'s. -/
def scoreGE (a b : SelectorCandidate) : Prop := b.score ≤ a.score

theorem insertByScore_perm (c : SelectorCandidate) (l : List SelectorCandidate) :
    List.Perm (insertByScore c l) (c :: l) := by
  induction l with
  | nil => simp [insertByScore]
  | cons x xs ih =>
    by_cases h : x.score ≤ c.score
    · simp [insertByScore, h]
    · rw [insertByScore, if_neg h]
      exact List.Perm.trans (List.Perm.cons x ih) (List.Perm.swap c x xs)

theorem sortByScoreDesc_perm (l : List SelectorCandidate) :
    List.Perm (sortByScoreDesc l) l := by
  induction l with
  | nil => simp [sortByScoreDesc]
  | cons c cs ih =>
    exact List.Perm.trans (insertByScore_perm c (sortByScoreDesc cs))
      (List.Perm.cons c ih)

theorem pairwise_insertByScore (c : SelectorCandidate)
    (l : List SelectorCandidate) (h : l.Pairwise scoreGE) :
    (insertByScore c l).Pairwise scoreGE := by
  induction l with
  | nil => simp [insertByScore, List.Pairwise]
  | cons x xs ih =>
    rcases List.pairwise_cons.mp h with ⟨hx, hxs⟩
    by_cases hc : x.score ≤ c.score
    · rw [insertByScore, if_pos hc]
      refine List.pairwise_cons.mpr ⟨?_, h⟩
      intro b hb
      rcases List.mem_cons.mp hb with hb | hb
      · subst hb; exact hc
      · exact le_trans (hx b hb) hc
    · rw [insertByScore, if_neg hc]
      refine List.pairwise_cons.mpr ⟨?_, ih hxs⟩
      intro b hb
      have hb' := (insertByScore_perm c xs).mem_iff.mp hb
      rcases List.mem_cons.mp hb' with hb' | hb'
      · subst hb'; exact le_of_lt (lt_of_not_le hc)
      · exact hx b hb'

theorem pairwise_sortByScoreDesc (l : List SelectorCandidate) :
    (sortByScoreDesc l).Pairwise scoreGE := by
  induction l with
  | nil => simp [sortByScoreDesc, List.Pairwise]
  | cons c cs ih => exact pairwise_insertByScore c (sortByScoreDesc cs) ih

/-- A list that is already (non-strictly) sorted descending is a fixed
point of the sort — in particular the stable Python sort leaves the
generation order untouched when candidate generation is already ordered. -/
theorem sortByScoreDesc_of_sorted (l : List SelectorCandidate)
    (h : l.Pairwise scoreGE) : sortByScoreDesc l = l := by
  induction l with
  | nil => rfl
  | cons c cs ih =>
    rcases List.pairwise_cons.mp h with ⟨hc, hcs⟩
    rw [sortByScoreDesc, ih hcs]
    cases cs with
    | nil => rfl
    | cons x xs =>
      have hx1 : x.score ≤ c.score := hc x (List.mem_cons_self _ _)
      rw [insertByScore, if_pos hx1]

theorem dedupByValue_sublist (l : List SelectorCandidate) (seen : List String) :
    (dedupByValue l seen).Sublist l := by
  induction l generalizing seen with
  | nil => simp [dedupByValue]
  | cons c cs ih =>
    by_cases h : c.value ∈ seen
    · rw [dedupByValue, if_pos h]
      exact List.Sublist.cons c (ih seen)
    · rw [dedupByValue, if_neg h]
      exact List.Sublist.cons₂ c (ih (c.value :: seen))

theorem dedupByValue_nodup_values (l : List SelectorCandidate)
    (seen : List String) :
    ((dedupByValue l seen).map SelectorCandidate.value).Nodup ∧
      ∀ c ∈ dedupByValue l seen, c.value ∉ seen := by
  induction l generalizing seen with
  | nil => simp [dedupByValue]
  | cons c cs ih =>
    by_cases h : c.value ∈ seen
    · rw [dedupByValue, if_pos h]
      exact ih seen
    · rw [dedupByValue, if_neg h]
      obtain ⟨ihn, ihs⟩ := ih (c.value :: seen)
      refine ⟨List.nodup_cons.mpr ⟨?_, ihn⟩, ?_⟩
      · intro hmem
        rcases List.mem_map.mp hmem with ⟨d, hd, hdv⟩
        exact ihs d hd (by rw [hdv]; exact List.mem_cons_self _ _)
      · intro d hd
        rcases List.mem_cons.mp hd with hd | hd
        · subst hd; exact h
        · exact fun hmem => ihs d hd (List.mem_cons_of_mem _ hmem)

/-- On a list sorted descending by score, dedup keeps, for every element of
the input whose value is not yet seen, a representative with the same value
and at least its score. -/
theorem dedupByValue_keeps_max (l : List SelectorCandidate) (seen : List String)
    (hs : l.Pairwise scoreGE) :
    ∀ c' ∈ l, c'.value ∉ seen →
      ∃ c ∈ dedupByValue l seen, c.value = c'.value ∧ c'.score ≤ c.score := by
  induction l generalizing seen with
  | nil => intro c' hc'; simp at hc'
  | cons x xs ih =>
    rcases List.pairwise_cons.mp hs with ⟨hx, hxs⟩
    intro c' hc' hseen
    by_cases h : x.value ∈ seen
    · rw [dedupByValue, if_pos h]
      rcases List.mem_cons.mp hc' with hc' | hc'
      · subst hc'; exact absurd h hseen
      · exact ih seen hxs c' hc' hseen
    · rw [dedupByValue, if_neg h]
      rcases List.mem_cons.mp hc' with hc' | hc'
      · subst hc'
        exact ⟨c', List.mem_cons_self _ _, rfl, le_refl _⟩
      · by_cases hv : c'.value = x.value
        · exact ⟨x, List.mem_cons_self _ _, hv.symm, hx c' hc'⟩
        · obtain ⟨c, hc, hcv, hcs⟩ := ih (x.value :: seen) hxs c' hc'
            (by intro hmem
                rcases List.mem_cons.mp hmem with hmem | hmem
                · exact hv hmem
                · exact hseen hmem)
          exact ⟨c, List.mem_cons_of_mem _ hc, hcv, hcs⟩

/-- Strict score-descending comparison. -/
def scoreGT (a b : SelectorCandidate) : Prop := b.score < a.score

theorem score_of_mem_hintCandidates (explicit : Option String) :
    ∀ c ∈ hintCandidates explicit, c.score = mkRat 11 10 := by
  intro c hc
  unfold hintCandidates at hc
  split at hc
  · split at hc
    · simp at hc; rw [hc]
    · simp at hc
  · simp at hc

theorem score_of_mem_idCandidates (m : SelectorMiner) (snap : DomSnapshot) :
    ∀ c ∈ idCandidates m snap, c.score = m.weight_id := by
  intro c hc
  unfold idCandidates at hc
  split at hc
  · split at hc
    · simp at hc; rw [hc]
    · simp at hc
  · simp at hc

theorem score_of_mem_roleCandidates (m : SelectorMiner) (snap : DomSnapshot) :
    ∀ c ∈ roleCandidates m snap, c.score = m.weight_role := by
  intro c hc
  unfold roleCandidates at hc
  split at hc
  · simp at hc; rw [hc]
  · simp at hc

theorem score_of_mem_textCandidates (m : SelectorMiner) (snap : DomSnapshot) :
    ∀ c ∈ textCandidates m snap, c.score = m.weight_text := by
  intro c hc
  unfold textCandidates at hc
  dsimp only at hc
  split at hc
  · split at hc
    · simp at hc; rw [hc]
    · simp at hc
  · simp at hc

theorem score_of_mem_cssCandidates (m : SelectorMiner) (snap : DomSnapshot) :
    ∀ c ∈ cssCandidates m snap, c.score = m.weight_css := by
  intro c hc
  unfold cssCandidates at hc
  dsimp only at hc
  split at hc
  · simp at hc; rw [hc]
  · split at hc
    · split at hc
      · simp at hc; rw [hc]
      · simp at hc
    · simp at hc

theorem score_of_mem_xpathCandidates (m : SelectorMiner) (snap : DomSnapshot) :
    ∀ c ∈ xpathCandidates m snap, c.score = ratSub m.weight_css (mkRat 1 10) := by
  intro c hc
  unfold xpathCandidates at hc
  split at hc
  · simp at hc; rw [hc]
  · simp at hc

theorem pairwise_of_short (l : List SelectorCandidate) (h : l.length ≤ 1) :
    l.Pairwise scoreGT := by
  cases l with
  | nil => simp
  | cons a t =>
    cases t with
    | nil => simp
    | cons b t2 => simp at h

theorem hintCandidates_short (explicit : Option String) :
    (hintCandidates explicit).length ≤ 1 := by
  unfold hintCandidates
  split
  · split <;> simp
  · simp

theorem idCandidates_short (m : SelectorMiner) (snap : DomSnapshot) :
    (idCandidates m snap).length ≤ 1 := by
  unfold idCandidates
  split
  · split <;> simp
  · simp

theorem roleCandidates_short (m : SelectorMiner) (snap : DomSnapshot) :
    (roleCandidates m snap).length ≤ 1 := by
  unfold roleCandidates
  split <;> simp

theorem textCandidates_short (m : SelectorMiner) (snap : DomSnapshot) :
    (textCandidates m snap).length ≤ 1 := by
  unfold textCandidates
  dsimp only
  split
  · split <;> simp
  · simp

theorem cssCandidates_short (m : SelectorMiner) (snap : DomSnapshot) :
    (cssCandidates m snap).length ≤ 1 := by
  unfold cssCandidates
  dsimp only
  split
  · simp
  · split
    · split <;> simp
    · simp

theorem xpathCandidates_short (m : SelectorMiner) (snap : DomSnapshot) :
    (xpathCandidates m snap).length ≤ 1 := by
  unfold xpathCandidates
  split <;> simp

/-- With the default weights each generation stage scores strictly below the
previous one, so the raw candidate list is already strictly descending. -/
theorem rawCandidates_default_pairwise (snap : DomSnapshot)
    (explicit : Option String) :
    (rawCandidates {} snap explicit).Pairwise scoreGT := by
  have hx : (xpathCandidates {} snap).Pairwise scoreGT :=
    pairwise_of_short _ (xpathCandidates_short {} snap)
  have hcx : (cssCandidates {} snap ++ xpathCandidates {} snap).Pairwise scoreGT := by
    refine List.pairwise_append.mpr ⟨pairwise_of_short _ (cssCandidates_short {} snap), hx, ?_⟩
    intro a ha b hb
    rw [scoreGT, score_of_mem_cssCandidates {} snap a ha,
      score_of_mem_xpathCandidates {} snap b hb]
    decide
  have htcx : (textCandidates {} snap ++ (cssCandidates {} snap ++
      xpathCandidates {} snap)).Pairwise scoreGT := by
    refine List.pairwise_append.mpr ⟨pairwise_of_short _ (textCandidates_short {} snap), hcx, ?_⟩
    intro a ha b hb
    rw [scoreGT, score_of_mem_textCandidates {} snap a ha]
    rcases List.mem_append.mp hb with hb | hb
    · rw [score_of_mem_cssCandidates {} snap b hb]; decide
    · rw [score_of_mem_xpathCandidates {} snap b hb]; decide
  have hrtcx : (roleCandidates {} snap ++ (textCandidates {} snap ++
      (cssCandidates {} snap ++ xpathCandidates {} snap))).Pairwise scoreGT := by
    refine List.pairwise_append.mpr ⟨pairwise_of_short _ (roleCandidates_short {} snap), htcx, ?_⟩
    intro a ha b hb
    rw [scoreGT, score_of_mem_roleCandidates {} snap a ha]
    rcases List.mem_append.mp hb with hb | hb
    · rw [score_of_mem_textCandidates {} snap b hb]; decide
    rcases List.mem_append.mp hb with hb | hb
    · rw [score_of_mem_cssCandidates {} snap b hb]; decide
    · rw [score_of_mem_xpathCandidates {} snap b hb]; decide
  have hirtcx : (idCandidates {} snap ++ (roleCandidates {} snap ++
      (textCandidates {} snap ++ (cssCandidates {} snap ++
        xpathCandidates {} snap)))).Pairwise scoreGT := by
    refine List.pairwise_append.mpr ⟨pairwise_of_short _ (idCandidates_short {} snap), hrtcx, ?_⟩
    intro a ha b hb
    rw [scoreGT, score_of_mem_idCandidates {} snap a ha]
    rcases List.mem_append.mp hb with hb | hb
    · rw [score_of_mem_roleCandidates {} snap b hb]; decide
    rcases List.mem_append.mp hb with hb | hb
    · rw [score_of_mem_textCandidates {} snap b hb]; decide
    rcases List.mem_append.mp hb with hb | hb
    · rw [score_of_mem_cssCandidates {} snap b hb]; decide
    · rw [score_of_mem_xpathCandidates {} snap b hb]; decide
  have hfinal : (hintCandidates explicit ++ (idCandidates {} snap ++ (roleCandidates {} snap ++
      (textCandidates {} snap ++ (cssCandidates {} snap ++
        xpathCandidates {} snap))))).Pairwise scoreGT := by
    refine List.pairwise_append.mpr ⟨pairwise_of_short _ (hintCandidates_short explicit), hirtcx, ?_⟩
    intro a ha b hb
    rw [scoreGT, score_of_mem_hintCandidates explicit a ha]
    rcases List.mem_append.mp hb with hb | hb
    · rw [score_of_mem_idCandidates {} snap b hb]; decide
    rcases List.mem_append.mp hb with hb | hb
    · rw [score_of_mem_roleCandidates {} snap b hb]; decide
    rcases List.mem_append.mp hb with hb | hb
    · rw [score_of_mem_textCandidates {} snap b hb]; decide
    rcases List.mem_append.mp hb with hb | hb
    · rw [score_of_mem_cssCandidates {} snap b hb]; decide
    · rw [score_of_mem_xpathCandidates {} snap b hb]; decide
  simpa [rawCandidates, List.append_assoc] using hfinal

/-! ## Claim C5: the mine contract -/

/-- **C5.** `SelectorMiner.mine` returns `[]` exactly when the event has no
DOM snapshot; it is a deterministic pure function of the snapshot and the
payload's `selector` hint (events agreeing on those agree on the result);
with the default weights the recorder instantiates, the result is sorted
strictly descending by score; for every weight configuration no two
candidates share a `value`; and deduplication keeps, for each generated
candidate value, a representative of the same value with at least its score
(the highest-scored occurrence). -/
theorem mine_contract :
    (∀ (m : SelectorMiner) (e : ActionEvent), e.dom_snapshot = none →
        m.mine e = []) ∧
    (∀ (m : SelectorMiner) (e e' : ActionEvent),
        e.dom_snapshot = e'.dom_snapshot →
        e.payload.selector = e'.payload.selector → m.mine e = m.mine e') ∧
    (∀ e : ActionEvent, (SelectorMiner.mine {} e).Pairwise scoreGT) ∧
    (∀ (m : SelectorMiner) (e : ActionEvent),
        ((m.mine e).map SelectorCandidate.value).Nodup) ∧
    (∀ (m : SelectorMiner) (snap : DomSnapshot) (explicit : Option String),
        (∀ c ∈ m.rank snap explicit, c ∈ rawCandidates m snap explicit) ∧
        (∀ c' ∈ rawCandidates m snap explicit,
          ∃ c ∈ m.rank snap explicit, c.value = c'.value ∧ c'.score ≤ c.score)) := by
  have hrank_sub : ∀ (m : SelectorMiner) (snap : DomSnapshot)
      (explicit : Option String), ∀ c ∈ m.rank snap explicit,
      c ∈ rawCandidates m snap explicit := by
    intro m snap explicit c hc
    have h1 : c ∈ sortByScoreDesc (rawCandidates m snap explicit) :=
      (dedupByValue_sublist _ []).mem hc
    exact (sortByScoreDesc_perm (rawCandidates m snap explicit)).mem_iff.mp h1
  refine ⟨?_, ?_, ?_, ?_, ?_⟩
  · intro m e h
    unfold SelectorMiner.mine
    rw [h]
  · intro m e e' h1 h2
    unfold SelectorMiner.mine
    rw [h1, h2]
  · intro e
    unfold SelectorMiner.mine
    cases e.dom_snapshot with
    | none => simp
    | some snap =>
      dsimp only
      unfold SelectorMiner.rank
      rw [sortByScoreDesc_of_sorted _
        ((rawCandidates_default_pairwise snap e.payload.selector).imp
          (fun h => le_of_lt h))]
      exact List.Pairwise.sublist (dedupByValue_sublist _ [])
        (rawCandidates_default_pairwise snap e.payload.selector)
  · intro m e
    unfold SelectorMiner.mine
    cases e.dom_snapshot with
    | none => simp
    | some snap =>
      dsimp only
      exact (dedupByValue_nodup_values _ []).1
  · intro m snap explicit
    refine ⟨hrank_sub m snap explicit, ?_⟩
    intro c' hc'
    have hmem : c' ∈ sortByScoreDesc (rawCandidates m snap explicit) :=
      (sortByScoreDesc_perm (rawCandidates m snap explicit)).mem_iff.mpr hc'
    exact dedupByValue_keeps_max _ []
      (pairwise_sortByScoreDesc (rawCandidates m snap explicit)) c' hmem
      (by simp)

/-- Witness for C5: a concrete event without a snapshot yields `[]`, two
concretely equal-input events agree, and the dedup representative of a
concrete raw candidate exists. -/
theorem mine_contract_witness :
    SelectorMiner.mine {}
        { event_id := "e1", order := 1, occurred_at := .current 0,
          type := .click, context := { url := "u" } } = [] ∧
    SelectorMiner.mine {}
        { event_id := "a", order := 1, occurred_at := .current 0,
          type := .click, context := { url := "u" },
          dom_snapshot := some { tag := "button", id := some "s" } } =
      SelectorMiner.mine {}
        { event_id := "b", order := 9, occurred_at := .current 5,
          type := .input, context := { url := "v" },
          dom_snapshot := some { tag := "button", id := some "s" } } ∧
    (∃ c ∈ SelectorMiner.rank {} { tag := "button", id := some "s" } none,
      c.value = "#s" ∧ (1 : ℚ) ≤ c.score) := by
  refine ⟨mine_contract.1 {} _ rfl, mine_contract.2.1 {} _ _ rfl rfl, ?_⟩
  have h := (mine_contract.2.2.2.2 {} { tag := "button", id := some "s" } none).2
    ⟨"#s", 1, "dom_id"⟩ (by decide)
  obtain ⟨c, hc, hv, hs⟩ := h
  exact ⟨c, hc, hv, hs⟩

/-! ## Claim C6: the explicit hint and the heuristic weights -/

/-- Counterexample to C6 as stated: the claim quantifies over every
configuration of the heuristic weights, but `_rank` sorts purely by score,
so a configuration with `weight_id = 2` places the id-derived candidate
above the explicit hint (score 1.1). -/
theorem hint_not_first_counterexample :
    (SelectorMiner.rank { weight_id := 2 }
        { tag := "button", id := some "submit", text := some "Submit" }
        (some "button#submit")).head? =
      some { value := "#submit", score := 2, origin := "dom_id" } ∧
    ((SelectorMiner.rank { weight_id := 2 }
        { tag := "button", id := some "submit", text := some "Submit" }
        (some "button#submit")).map SelectorCandidate.value).head? ≠
      some "button#submit" := by
  constructor
  · rfl
  · decide

/-- `hintCandidates` of a nonempty hint is the singleton 1.1-scored
candidate. -/
theorem hintCandidates_eq (h : String) (hne : h ≠ "") :
    hintCandidates (some h) = [⟨h, mkRat 11 10, "browser_use"⟩] := by
  unfold hintCandidates
  dsimp only
  rw [if_pos hne]

/-- **C6 (amended).** When every configured heuristic weight is below 1.1
(as with the default configuration), a nonempty explicit `selector` hint is
always the first ranked candidate, with score exactly 1.1, and every other
returned candidate scores strictly below it; with an arbitrary weight
configuration this can fail (see the counterexample).  The concrete
scenario holds end-to-end: recording a click on
`<button id="submit">Submit</button>` with payload
`{selector: "button#submit"}` produces a node whose selector list begins
`["button#submit", "#submit"]`. -/
theorem hint_outranks_heuristics :
    (∀ (m : SelectorMiner) (snap : DomSnapshot) (h : String),
        h ≠ "" → m.weight_id < mkRat 11 10 → m.weight_role < mkRat 11 10 →
        m.weight_text < mkRat 11 10 → m.weight_css < mkRat 11 10 →
        ∃ rest, m.rank snap (some h) = ⟨h, mkRat 11 10, "browser_use"⟩ :: rest ∧
          ∀ c ∈ rest, c.score < mkRat 11 10) ∧
    ((recordBrowserUseEvent {}
        { event_id := some "evt-1", category := some "click",
          url := some "https://example.com",
          dom := some { tag := some "button", attributes := [("id", "submit")],
                        innerText := some "Submit" },
          payload := { selector := some "button#submit" } }
        {} none .raised).2.map (fun n => n.selectors.take 2)) =
      some ["button#submit", "#submit"] := by
  constructor
  · intro m snap h hne hid hrole htext hcss
    have hraw : rawCandidates m snap (some h) = ⟨h, mkRat 11 10, "browser_use"⟩ ::
        (idCandidates m snap ++ roleCandidates m snap ++ textCandidates m snap ++
          cssCandidates m snap ++ xpathCandidates m snap) := by
      rw [rawCandidates, hintCandidates_eq h hne]
      simp only [List.singleton_append, List.cons_append, List.nil_append]
    have hbelow : ∀ b ∈ idCandidates m snap ++ roleCandidates m snap ++
        textCandidates m snap ++ cssCandidates m snap ++ xpathCandidates m snap,
        b.score < mkRat 11 10 := by
      intro b hb
      rcases List.mem_append.mp hb with hb | hb
      rotate_left
      · rw [score_of_mem_xpathCandidates m snap b hb, ratSub_eq]
        have h10 : (0:ℚ) < mkRat 1 10 := by decide
        linarith
      rcases List.mem_append.mp hb with hb | hb
      rotate_left
      · rw [score_of_mem_cssCandidates m snap b hb]; exact hcss
      rcases List.mem_append.mp hb with hb | hb
      rotate_left
      · rw [score_of_mem_textCandidates m snap b hb]; exact htext
      rcases List.mem_append.mp hb with hb | hb
      · rw [score_of_mem_idCandidates m snap b hb]; exact hid
      · rw [score_of_mem_roleCandidates m snap b hb]; exact hrole
    obtain ⟨tl, hsorted, htl⟩ : ∃ tl,
        sortByScoreDesc (rawCandidates m snap (some h)) =
          (⟨h, mkRat 11 10, "browser_use"⟩ : SelectorCandidate) :: tl ∧
          ∀ b ∈ tl, b.score < mkRat 11 10 := by
      rw [hraw, sortByScoreDesc]
      have hmemsh : ∀ b ∈ sortByScoreDesc (idCandidates m snap ++
          roleCandidates m snap ++ textCandidates m snap ++ cssCandidates m snap ++
          xpathCandidates m snap), b.score < mkRat 11 10 := by
        intro b hb
        exact hbelow b ((sortByScoreDesc_perm _).mem_iff.mp hb)
      cases hshape : sortByScoreDesc (idCandidates m snap ++ roleCandidates m snap ++
          textCandidates m snap ++ cssCandidates m snap ++ xpathCandidates m snap) with
      | nil => exact ⟨[], by simp [insertByScore], by simp⟩
      | cons x xs =>
        have hx : x.score ≤ mkRat 11 10 :=
          le_of_lt (hmemsh x (by rw [hshape]; exact List.mem_cons_self _ _))
        refine ⟨x :: xs, by rw [insertByScore, if_pos hx], ?_⟩
        intro b hb
        exact hmemsh b (by rw [hshape]; exact hb)
    refine ⟨dedupByValue tl [h], ?_, ?_⟩
    · rw [SelectorMiner.rank, hsorted, dedupByValue, if_neg (by simp)]
    · intro c hc
      exact htl c ((dedupByValue_sublist tl [h]).mem hc)
  · rfl

/-- Witness for C6's amended general part: the default weights are all below
1.1, so on the scenario snapshot the hint is ranked first at score 1.1. -/
theorem hint_outranks_heuristics_witness :
    ∃ rest, SelectorMiner.rank {}
        { tag := "button", id := some "submit", text := some "Submit" }
        (some "button#submit") =
      ⟨"button#submit", mkRat 11 10, "browser_use"⟩ :: rest ∧
      ∀ c ∈ rest, c.score < mkRat 11 10 := by
  exact hint_outranks_heuristics.1 {}
    { tag := "button", id := some "submit", text := some "Submit" }
    "button#submit" (by decide) (by decide) (by decide) (by decide)
    (by decide)

/-! ## Claim C2: no duplicate successors -/

/-- The claimed invariant: every successor list in the adjacency map is
duplicate-free. -/
def EdgesNodup (g : FlowGraph) : Prop := ∀ p ∈ g.edges, p.2.Nodup

theorem mem_replaceFirst (l : List String) (old new x : String)
    (hx : x ∈ replaceFirst l old new) : x ∈ l ∨ x = new := by
  induction l with
  | nil => simp [replaceFirst] at hx
  | cons a t ih =>
    by_cases ha : a = old
    · rw [replaceFirst, if_pos ha] at hx
      rcases List.mem_cons.mp hx with hx | hx
      · exact Or.inr hx
      · exact Or.inl (List.mem_cons_of_mem _ hx)
    · rw [replaceFirst, if_neg ha] at hx
      rcases List.mem_cons.mp hx with hx | hx
      · exact Or.inl (by simp [hx])
      · rcases ih hx with hx | hx
        · exact Or.inl (List.mem_cons_of_mem _ hx)
        · exact Or.inr hx

theorem replaceFirst_nodup (l : List String) (old new : String)
    (hl : l.Nodup) (hnew : new ∉ l ∨ new = old) :
    (replaceFirst l old new).Nodup := by
  induction l with
  | nil => simp [replaceFirst]
  | cons a t ih =>
    rcases List.nodup_cons.mp hl with ⟨hat, ht⟩
    by_cases ha : a = old
    · rw [replaceFirst, if_pos ha]
      refine List.nodup_cons.mpr ⟨?_, ht⟩
      rcases hnew with hnew | hnew
      · exact fun hmem => hnew (List.mem_cons_of_mem _ hmem)
      · rw [hnew, ← ha]; exact hat
    · rw [replaceFirst, if_neg ha]
      refine List.nodup_cons.mpr ⟨?_, ?_⟩
      · intro hmem
        rcases mem_replaceFirst t old new a hmem with hmem | hmem
        · exact hat hmem
        · rcases hnew with hnew | hnew
          · exact hnew (by simp [hmem])
          · exact ha (hmem.trans hnew)
      · refine ih ht ?_
        rcases hnew with hnew | hnew
        · exact Or.inl (fun hmem => hnew (List.mem_cons_of_mem _ hmem))
        · exact Or.inr hnew

/-- Counterexample to C2 as stated: from the empty graph,
`connect s a; connect s b; rewire s a b` yields the successor list
`[b, b]` for `s` — `rewire` blindly overwrites the slot of `old_target`
and can duplicate an existing successor. -/
theorem rewire_duplicates_counterexample :
    FlowGraph.succs
        (((FlowGraph.empty.connect "s" "a").connect "s" "b").rewire "s" "a" "b").edges
        "s" = ["b", "b"] ∧
    ¬ (FlowGraph.succs
        (((FlowGraph.empty.connect "s" "a").connect "s" "b").rewire "s" "a" "b").edges
        "s").Nodup := by
  exact ⟨rfl, by decide⟩

/-- **C2 (amended).** `add_node`, `connect`, `remove_edge` and `prune_after`
all preserve duplicate-freeness of every successor list, so any operation
sequence avoiding `rewire` keeps the invariant from the empty graph;
`rewire` preserves it only when the new target is not already a successor
of the source (or equals the old target) — otherwise it can introduce a
duplicate, as the counterexample shows. -/
theorem graph_ops_preserve_nodup :
    (∀ (g : FlowGraph) (n : FlowNode), EdgesNodup g → EdgesNodup (g.add_node n)) ∧
    (∀ (g : FlowGraph) (s t : String), EdgesNodup g → EdgesNodup (g.connect s t)) ∧
    (∀ (g : FlowGraph) (s t : String), EdgesNodup g → EdgesNodup (g.remove_edge s t)) ∧
    (∀ (g : FlowGraph) (k : String), EdgesNodup g → EdgesNodup (g.prune_after k)) ∧
    (∀ (g : FlowGraph) (s old new : String), EdgesNodup g →
        (new ∉ FlowGraph.succs g.edges s ∨ new = old) →
        EdgesNodup (g.rewire s old new)) := by
  have hsetdefault : ∀ (E : List (String × List String)) (k : String),
      (∀ p ∈ E, p.2.Nodup) → ∀ p ∈ asetdefault E k [], p.2.Nodup := by
    intro E k hE p hp
    rcases mem_asetdefault E k [] p hp with hp | hp
    · rw [hp]; simp
    · exact hE p hp
  refine ⟨?_, ?_, ?_, ?_, ?_⟩
  · intro g n hg
    unfold FlowGraph.add_node
    cases g.tail with
    | none => exact hsetdefault g.edges n.node_id hg
    | some t =>
      dsimp only
      by_cases ht : t = ""
      · rw [if_pos ht]
        exact hsetdefault g.edges n.node_id hg
      · rw [if_neg ht]
        cases hlk : alookup (asetdefault g.edges n.node_id []) t with
        | none => exact hsetdefault g.edges n.node_id hg
        | some l =>
          dsimp only
          by_cases hmem : n.node_id ∈ l
          · rw [if_pos hmem]
            exact hsetdefault g.edges n.node_id hg
          · rw [if_neg hmem]
            intro p hp
            rcases mem_aset _ t (l ++ [n.node_id]) p hp with hp | hp
            · rw [hp]
              have hl : l.Nodup :=
                hsetdefault g.edges n.node_id hg (t, l) (alookup_mem _ _ _ hlk)
              simpa [List.nodup_append, hmem] using hl
            · exact hsetdefault g.edges n.node_id hg p hp
  · intro g s t hg
    unfold FlowGraph.connect
    dsimp only
    by_cases hmem : t ∈ (alookup (asetdefault g.edges s []) s).getD []
    · rw [if_pos hmem]
      exact hsetdefault g.edges s hg
    · rw [if_neg hmem]
      intro p hp
      rcases mem_aset _ s _ p hp with hp | hp
      · rw [hp]
        cases hlk : alookup (asetdefault g.edges s []) s with
        | none => simp
        | some l =>
          rw [hlk] at hmem
          simp only [Option.getD_some] at hmem
          have hl : l.Nodup :=
            hsetdefault g.edges s hg (s, l) (alookup_mem _ _ _ hlk)
          simp [List.nodup_append, hl, hmem]
      · exact hsetdefault g.edges s hg p hp
  · intro g s t hg
    unfold FlowGraph.remove_edge
    cases hlk : alookup g.edges s with
    | none => exact hg
    | some l =>
      dsimp only
      by_cases hmem : t ∈ l
      · rw [if_pos hmem]
        intro p hp
        rcases mem_aset _ s (l.erase t) p hp with hp | hp
        · rw [hp]
          exact List.Nodup.erase t (hg (s, l) (alookup_mem _ _ _ hlk))
        · exact hg p hp
      · rw [if_neg hmem]
        exact hg
  · intro g k hg
    unfold FlowGraph.prune_after
    intro p hp
    rcases List.mem_map.mp hp with ⟨q, hq, hpq⟩
    rw [← hpq]
    exact List.Nodup.filter _ (hg q (List.mem_of_mem_filter hq))
  · intro g s old new hg hcond
    unfold FlowGraph.rewire
    cases hlk : alookup g.edges s with
    | none => exact hg
    | some l =>
      dsimp only
      by_cases hmem : old ∈ l
      · rw [if_pos hmem]
        intro p hp
        rcases mem_aset _ s (replaceFirst l old new) p hp with hp | hp
        · rw [hp]
          refine replaceFirst_nodup l old new (hg (s, l) (alookup_mem _ _ _ hlk)) ?_
          rcases hcond with hc | hc
          · exact Or.inl (by simpa [FlowGraph.succs, hlk] using hc)
          · exact Or.inr hc
        · exact hg p hp
      · rw [if_neg hmem]
        exact hg

/-- Witness for C2's amended preservation: a concrete chain of the safe
operations (and a rewire whose new target is fresh) keeps every successor
list duplicate-free. -/
theorem graph_ops_preserve_nodup_witness :
    EdgesNodup ((((FlowGraph.empty.connect "s" "a").connect "s" "b").rewire
      "s" "a" "c").remove_edge "s" "b") := by
  have h0 : EdgesNodup FlowGraph.empty := by
    intro p hp
    simp [FlowGraph.empty] at hp
  have h1 := graph_ops_preserve_nodup.2.1 FlowGraph.empty "s" "a" h0
  have h2 := graph_ops_preserve_nodup.2.1 _ "s" "b" h1
  have h3 := graph_ops_preserve_nodup.2.2.2.2 _ "s" "a" "c" h2 (Or.inl (by decide))
  exact graph_ops_preserve_nodup.2.2.1 _ "s" "b" h3

/-! ## Claim C7: sequential addNode builds a path graph -/

/-- The adjacency map of the path graph over `ids`, in insertion order:
each id maps to the singleton next id, the last to `[]`. -/
def pathEdges : List String → List (String × List String)
  | [] => []
  | [x] => [(x, [])]
  | x :: y :: rest => (x, [y]) :: pathEdges (y :: rest)

theorem alookup_eq_none_of_not_mem {α : Type} (l : List (String × α)) (k : String)
    (h : k ∉ akeys l) : alookup l k = none := by
  induction l with
  | nil => rfl
  | cons p rest ih =>
    simp [akeys] at h
    rw [alookup, if_neg (fun hh => h.1 hh.symm),
      ih (by simpa [akeys] using h.2)]

theorem akeys_aset_not_mem {α : Type} (l : List (String × α)) (k : String) (v : α)
    (h : k ∉ akeys l) : akeys (aset l k v) = akeys l ++ [k] := by
  induction l with
  | nil => simp [aset, akeys]
  | cons p rest ih =>
    simp [akeys] at h
    rw [aset, if_neg (fun hh => h.1 hh.symm)]
    simp only [akeys, List.map_cons, List.cons_append]
    rw [show List.map Prod.fst (aset rest k v) = akeys (aset rest k v) from rfl,
      ih (by simpa [akeys] using h.2)]
    rfl

theorem akeys_pathEdges (ids : List String) : akeys (pathEdges ids) = ids := by
  induction ids with
  | nil => rfl
  | cons x rest ih =>
    cases rest with
    | nil => rfl
    | cons y rest' =>
      rw [pathEdges]
      simpa [akeys] using (by simpa [akeys] using ih)

theorem alookup_pathEdges_getLast (ids : List String) (h : ids ≠ [])
    (hnd : ids.Nodup) : alookup (pathEdges ids) (ids.getLast h) = some [] := by
  induction ids with
  | nil => exact absurd rfl h
  | cons x rest ih =>
    cases rest with
    | nil => simp [pathEdges, alookup, List.getLast]
    | cons y rest' =>
      have hlast : (x :: y :: rest').getLast h = (y :: rest').getLast (by simp) :=
        List.getLast_cons (by simp)
      rw [pathEdges, hlast, alookup]
      have hx : x ∉ y :: rest' := (List.nodup_cons.mp hnd).1
      have hne : ¬ x = (y :: rest').getLast (by simp) := by
        intro hcon
        exact hx (hcon ▸ List.getLast_mem (by simp))
      rw [if_neg hne]
      exact ih (by simp) (List.nodup_cons.mp hnd).2

theorem aset_pathEdges_last (ids : List String) (h : ids ≠ []) (z : String)
    (hnd : (ids ++ [z]).Nodup) :
    aset (pathEdges ids ++ [(z, [])]) (ids.getLast h) [z] = pathEdges (ids ++ [z]) := by
  induction ids with
  | nil => exact absurd rfl h
  | cons x rest ih =>
    cases rest with
    | nil => simp [pathEdges, aset, List.getLast]
    | cons y rest' =>
      have hlast : (x :: y :: rest').getLast h = (y :: rest').getLast (by simp) :=
        List.getLast_cons (by simp)
      have hx : x ∉ (y :: rest') ++ [z] := (List.nodup_cons.mp hnd).1
      have hne : ¬ x = (y :: rest').getLast (by simp) := by
        intro hcon
        exact hx (List.mem_append.mpr (Or.inl (hcon ▸ List.getLast_mem (by simp))))
      rw [pathEdges, hlast]
      rw [show ((x, [y]) :: pathEdges (y :: rest')) ++ [(z, [])] =
        (x, [y]) :: (pathEdges (y :: rest') ++ [(z, [])]) from rfl]
      rw [aset, if_neg hne]
      rw [ih (by simp) (List.nodup_cons.mp hnd).2]
      rfl

theorem alookup_pathEdges_get (ids : List String) (hnd : ids.Nodup) :
    ∀ i (hi : i + 1 < ids.length),
      alookup (pathEdges ids) (ids.get ⟨i, Nat.lt_of_succ_lt hi⟩) =
        some [ids.get ⟨i + 1, hi⟩] := by
  induction ids with
  | nil => intro i hi; simp at hi
  | cons x rest ih =>
    cases rest with
    | nil => intro i hi; simp at hi
    | cons y rest' =>
      intro i hi
      cases i with
      | zero => simp [pathEdges, alookup, List.get]
      | succ i' =>
        have hx : x ∉ y :: rest' := (List.nodup_cons.mp hnd).1
        have hmem : (y :: rest').get ⟨i', by simpa using Nat.lt_of_succ_lt hi⟩ ∈
            y :: rest' := List.get_mem _ _ _
        rw [pathEdges, alookup,
          show (x :: y :: rest').get ⟨i' + 1, Nat.lt_of_succ_lt hi⟩ =
            (y :: rest').get ⟨i', by simpa using Nat.lt_of_succ_lt hi⟩ from rfl,
          if_neg (fun hcon => hx (by rw [hcon]; exact hmem))]
        have := ih (List.nodup_cons.mp hnd).2 i' (by simpa using hi)
        rw [this]
        rfl

/-- Folding `add_node` over nodes with duplicate-free, nonempty ids builds
exactly the path graph: adjacency `pathEdges`, `entry` the first id,
`tail` the last id, node keys the id list in order. -/
theorem build_path (ns : List FlowNode)
    (hnd : (ns.map FlowNode.node_id).Nodup)
    (hne : ∀ n ∈ ns, n.node_id ≠ "") :
    (ns.foldl FlowGraph.add_node FlowGraph.empty).edges =
        pathEdges (ns.map FlowNode.node_id) ∧
    (ns.foldl FlowGraph.add_node FlowGraph.empty).entry =
        (ns.map FlowNode.node_id).head? ∧
    (ns.foldl FlowGraph.add_node FlowGraph.empty).tail =
        (ns.map FlowNode.node_id).getLast? ∧
    akeys (ns.foldl FlowGraph.add_node FlowGraph.empty).nodes =
        ns.map FlowNode.node_id := by
  induction ns using List.reverseRecOn with
  | nil => exact ⟨rfl, rfl, rfl, rfl⟩
  | append_singleton l n ih =>
    have hmap : (l ++ [n]).map FlowNode.node_id =
        l.map FlowNode.node_id ++ [n.node_id] := by simp
    have hndl : (l.map FlowNode.node_id).Nodup := by
      rw [hmap] at hnd
      exact (List.nodup_append.mp hnd).1
    have hnidl : n.node_id ∉ l.map FlowNode.node_id := by
      rw [hmap] at hnd
      intro hcon
      exact (List.nodup_append.mp hnd).2.2 hcon (by simp)
    obtain ⟨ihe, ihen, iht, ihk⟩ := ih hndl (fun m hm => hne m (by simp [hm]))
    have hfold : (l ++ [n]).foldl FlowGraph.add_node FlowGraph.empty =
        (l.foldl FlowGraph.add_node FlowGraph.empty).add_node n := by
      rw [List.foldl_append]
      rfl
    rw [hfold, hmap]
    set g2 := l.foldl FlowGraph.add_node FlowGraph.empty with hg2
    cases hl : l.map FlowNode.node_id with
    | nil =>
      have hlnil : l = [] := by
        cases l with
        | nil => rfl
        | cons a t => simp at hl
      subst hlnil
      exact ⟨rfl, rfl, rfl, rfl⟩
    | cons x t =>
      -- the previous tail is the last id of the nonempty prefix
      have hlast : (x :: t).getLast? = some ((x :: t).getLast (by simp)) := by
        rw [List.getLast?_eq_getLast]
      have htail : g2.tail =
          some ((x :: t).getLast (by simp)) := by
        rw [iht, hl, hlast]
      have hLmem : (x :: t).getLast (by simp) ∈ l.map FlowNode.node_id := by
        rw [hl]
        exact List.getLast_mem _
      have hLne : (x :: t).getLast (by simp) ≠ "" := by
        rcases List.mem_map.mp hLmem with ⟨m, hm, hmid⟩
        rw [← hmid]
        exact hne m (by simp [hm])
      have hsetdef : asetdefault g2.edges
          n.node_id [] = pathEdges (x :: t) ++ [(n.node_id, [])] := by
        rw [ihe, hl, asetdefault,
          alookup_eq_none_of_not_mem _ _ (by rw [akeys_pathEdges]; rw [hl] at hnidl; exact hnidl)]
      have hlk : alookup (pathEdges (x :: t) ++ [(n.node_id, [])])
          ((x :: t).getLast (by simp)) = some [] := by
        rw [alookup_append,
          alookup_pathEdges_getLast (x :: t) (by simp) (by rw [hl] at hndl; exact hndl)]
      have hnd2 : ((x :: t) ++ [n.node_id]).Nodup := by
        rw [hmap, hl] at hnd
        exact hnd
      constructor
      · show (FlowGraph.add_node _ n).edges = _
        unfold FlowGraph.add_node
        rw [htail]
        dsimp only
        rw [if_neg hLne, hsetdef, hlk]
        dsimp only
        rw [if_neg (by simp)]
        rw [show ([] ++ [n.node_id] : List String) = [n.node_id] from rfl]
        exact aset_pathEdges_last (x :: t) (by simp) n.node_id hnd2
      constructor
      · show (FlowGraph.add_node _ n).entry = _
        unfold FlowGraph.add_node
        rw [htail]
        dsimp only
        rw [if_neg hLne, hsetdef, hlk]
        dsimp only
        show (match g2.entry with
          | none => some n.node_id
          | some e => some e) = ((x :: t) ++ [n.node_id]).head?
        rw [ihen, hl]
        rfl
      constructor
      · show (FlowGraph.add_node _ n).tail = _
        unfold FlowGraph.add_node
        rw [htail]
        dsimp only
        rw [if_neg hLne, hsetdef, hlk]
        dsimp only
        show some n.node_id = ((x :: t) ++ [n.node_id]).getLast?
        rw [List.getLast?_concat]
      · show akeys (FlowGraph.add_node _ n).nodes = _
        rw [add_node_nodes, akeys_aset_not_mem _ _ _ (by rw [ihk]; exact hnidl),
          ihk, hl]

/-- Counterexample to C7 as stated: three distinct ids, one of them the
empty string.  Because `add_node` guards auto-chaining with Python
truthiness (`if self._tail and ...`), the empty-string tail never chains,
so the middle node keeps an empty successor list instead of pointing at
the third node — the result is not a path graph. -/
theorem add_node_empty_id_breaks_path :
    ([mkNode "a", mkNode "", mkNode "b"].map FlowNode.node_id).Nodup ∧
    FlowGraph.succs
        ([mkNode "a", mkNode "", mkNode "b"].foldl FlowGraph.add_node
          FlowGraph.empty).edges
        (([mkNode "a", mkNode "", mkNode "b"].map FlowNode.node_id).get
          ⟨1, by decide⟩) ≠
      [([mkNode "a", mkNode "", mkNode "b"].map FlowNode.node_id).get
        ⟨2, by decide⟩] := by
  exact ⟨by decide, by decide⟩

/-- **C7 (amended).** Calling `add_node` N times with N distinct *nonempty*
node ids on a fresh graph, with no explicit `connect` calls, produces the
path graph node₁→node₂→…→nodeₙ: `entry` is the first id, node `i` has
exactly the successor `i+1`, and the last node's successor list is empty.
(With an empty-string id in the sequence the chain silently breaks — see
the counterexample.) -/
theorem add_node_builds_path_graph (ns : List FlowNode)
    (hnd : (ns.map FlowNode.node_id).Nodup)
    (hne : ∀ n ∈ ns, n.node_id ≠ "") :
    (ns.foldl FlowGraph.add_node FlowGraph.empty).entry =
      (ns.map FlowNode.node_id).head? ∧
    (∀ i (hi : i + 1 < (ns.map FlowNode.node_id).length),
      FlowGraph.succs (ns.foldl FlowGraph.add_node FlowGraph.empty).edges
          ((ns.map FlowNode.node_id).get ⟨i, Nat.lt_of_succ_lt hi⟩) =
        [(ns.map FlowNode.node_id).get ⟨i + 1, hi⟩]) ∧
    (∀ h : ns ≠ [],
      FlowGraph.succs (ns.foldl FlowGraph.add_node FlowGraph.empty).edges
          ((ns.map FlowNode.node_id).getLast (by simpa using h)) = []) := by
  obtain ⟨he, hen, _, _⟩ := build_path ns hnd hne
  refine ⟨hen, ?_, ?_⟩
  · intro i hi
    rw [FlowGraph.succs, he, alookup_pathEdges_get _ hnd i hi]
    rfl
  · intro h
    rw [FlowGraph.succs, he,
      alookup_pathEdges_getLast _ (by simpa using h) hnd]
    rfl

/-- Witness for C7: three concrete nodes produce the path a→b→c. -/
theorem add_node_builds_path_graph_witness :
    ([mkNode "a", mkNode "b", mkNode "c"].foldl FlowGraph.add_node
        FlowGraph.empty).entry = some "a" ∧
    FlowGraph.succs ([mkNode "a", mkNode "b", mkNode "c"].foldl
        FlowGraph.add_node FlowGraph.empty).edges "a" = ["b"] ∧
    FlowGraph.succs ([mkNode "a", mkNode "b", mkNode "c"].foldl
        FlowGraph.add_node FlowGraph.empty).edges "c" = [] := by
  have h := add_node_builds_path_graph [mkNode "a", mkNode "b", mkNode "c"]
    (by decide) (by decide)
  exact ⟨h.1, h.2.1 0 (by decide), h.2.2 (by simp)⟩

/-! ## Claim C4: the session order counter -/

/-- The payload ingests without raising: its `timestamp`, if present, is a
well-formed ISO string. -/
def ingestOK (p : RawPayload) : Prop :=
  p.timestamp = none ∨ ∃ s, p.timestamp = some s ∧ isIsoDate s = true

/-- Number of `record` operations in a run. -/
def countRecords : List RecorderOp → Nat
  | [] => 0
  | RecorderOp.record _ _ :: ops => countRecords ops + 1
  | RecorderOp.prune _ :: ops => countRecords ops

theorem normalize_ok_of_ingestOK (p : RawPayload) (h : ingestOK p) (ord : Nat)
    (env : IngestEnv) :
    ∃ ev, normalizeEvent p ord env = .ok ev ∧ ev.order = ord := by
  unfold normalizeEvent
  rcases h with h | ⟨s, hs, hiso⟩
  · rw [h]
    exact ⟨_, rfl, rfl⟩
  · rw [hs]
    unfold parseIso
    dsimp only
    rw [if_pos hiso]
    exact ⟨_, rfl, rfl⟩

/-- Running operations from any starting counter value: every successfully
ingested event receives the next counter value, so the produced orders are
the consecutive block starting right after the initial counter, prune
operations notwithstanding. -/
theorem runOps_orders (ops : List RecorderOp) :
    ∀ st : RecorderState,
      (∀ p env, RecorderOp.record p env ∈ ops → ingestOK p) →
      ((runOps st ops).2.map (fun n => n.event.order) =
        List.range' (st.order + 1) (countRecords ops)) ∧
      (runOps st ops).1.order = st.order + countRecords ops := by
  induction ops with
  | nil => intro st _; simp [runOps, countRecords, List.range']
  | cons op ops ih =>
    intro st hok
    cases op with
    | record p env =>
      obtain ⟨ev, hev, hord⟩ := normalize_ok_of_ingestOK p
        (hok p env (List.mem_cons_self _ _)) (st.order + 1) env
      have hok2 : ∀ q envq, RecorderOp.record q envq ∈ ops → ingestOK q :=
        fun q envq hq => hok q envq (List.mem_cons_of_mem _ hq)
      rw [runOps]
      simp only [recordBrowserUseEvent, hev]
      obtain ⟨ihm, iho⟩ := ih _ hok2
      constructor
      · rw [List.map_cons, hord, ihm]
        rw [countRecords]
        rfl
      · rw [iho, countRecords]
        dsimp only
        omega
    | prune k =>
      obtain ⟨ihm, iho⟩ := ih { st with graph := st.graph.prune_after k }
        (fun q envq hq => hok q envq (List.mem_cons_of_mem _ hq))
      rw [runOps]
      exact ⟨ihm, by rw [countRecords, iho]⟩

/-- Counterexample to C4 as stated: a malformed timestamp aborts ingestion
*after* the counter was incremented, so the surviving events carry orders
`[1, 3]` — not the claimed contiguous `1, 2, …`. -/
theorem record_orders_skip_counterexample :
    ((runOps {} [RecorderOp.record { category := some "click" } {},
        RecorderOp.record { timestamp := some "not-a-date" } {},
        RecorderOp.record { category := some "click" } {}]).2.map
      (fun n => n.event.order)) = [1, 3] ∧
    [1, 3] ≠ List.range' 1 2 := by
  exact ⟨rfl, by decide⟩

/-- **C4 (amended).** For every sequence of `record_browser_use_event`
calls (arbitrarily interleaved with `prune_after`) on one fresh session
recorder, in which every payload ingests successfully (its timestamp, when
present, parses), the `order` values of the produced events are exactly
1, 2, 3, … in call order — unique, strictly increasing, starting at 1 and
never reused after pruning.  When an ingestion aborts on a malformed
timestamp it still consumes a counter value, so orders of surviving events
can skip (see the counterexample). -/
theorem record_orders_sequence (ops : List RecorderOp)
    (hok : ∀ p env, RecorderOp.record p env ∈ ops → ingestOK p) :
    (runOps {} ops).2.map (fun n => n.event.order) =
      List.range' 1 (countRecords ops) := by
  exact (runOps_orders ops {} hok).1

/-- Witness for C4: two good records around a prune produce orders `[1, 2]`. -/
theorem record_orders_sequence_witness :
    (runOps {} [RecorderOp.record { category := some "click" } {},
        RecorderOp.prune "x",
        RecorderOp.record { category := some "input" } {}]).2.map
      (fun n => n.event.order) = List.range' 1 2 := by
  have h := record_orders_sequence
    [RecorderOp.record { category := some "click" } {},
     RecorderOp.prune "x",
     RecorderOp.record { category := some "input" } {}]
    (by
      intro p env h
      simp only [List.mem_cons, List.not_mem_nil, or_false] at h
      rcases h with h | h | h
      · injection h with h1 h2
        rw [h1]
        exact Or.inl rfl
      · cases h
      · injection h with h1 h2
        rw [h1]
        exact Or.inl rfl)
  exact h

/-! ## Claim C3: prune_after and the reachable set -/

/-- One adjacency step: `b` is a successor of `a`. -/
def EdgeStep (E : List (String × List String)) (a b : String) : Prop :=
  b ∈ FlowGraph.succs E a

/-- `x` is reachable from one of `k`'s successors by following the adjacency
mapping zero or more times — the set the spec says `prune_after k`
removes. -/
def ReachableFromSuccs (E : List (String × List String)) (k x : String) : Prop :=
  ∃ s ∈ FlowGraph.succs E k, Relation.ReflTransGen (EdgeStep E) s x


theorem stepList_mono (expand : String → List String → List String)
    (hexp : ∀ x acc, acc ⊆ expand x acc) :
    ∀ (l acc : List String), acc ⊆ stepList expand l acc := by
  intro l
  induction l with
  | nil => intro acc a ha; simpa [stepList] using ha
  | cons x xs ih =>
    intro acc a ha
    rw [stepList]
    by_cases h : x ∈ acc
    · rw [if_pos h]; exact ih acc ha
    · rw [if_neg h]; exact ih _ (hexp x acc ha)

theorem expandFuel_mono (E : List (String × List String)) :
    ∀ (fuel : Nat) (x : String) (acc : List String),
      acc ⊆ expandFuel E fuel x acc := by
  intro fuel
  induction fuel with
  | zero => exact fun x acc a ha => List.mem_cons_of_mem _ ha
  | succ n ihn =>
    intro x acc a ha
    exact stepList_mono (expandFuel E n) (ihn) _ _ (List.mem_cons_of_mem _ ha)

theorem mem_expandFuel_self (E : List (String × List String)) (fuel : Nat)
    (x : String) (acc : List String) : x ∈ expandFuel E fuel x acc := by
  cases fuel with
  | zero => exact List.mem_cons_self _ _
  | succ n =>
    exact stepList_mono (expandFuel E n) (expandFuel_mono E n) _ _
      (List.mem_cons_self _ _)

/-- Every element of the walked successor list ends up in the visited set. -/
theorem mem_stepList_of_mem (expand : String → List String → List String)
    (hmono : ∀ x acc, acc ⊆ expand x acc)
    (hself : ∀ x acc, x ∈ expand x acc) :
    ∀ (l acc : List String), ∀ y ∈ l, y ∈ stepList expand l acc := by
  intro l
  induction l with
  | nil => intro acc y hy; simp at hy
  | cons x xs ih =>
    intro acc y hy
    rw [stepList]
    by_cases h : x ∈ acc
    · rw [if_pos h]
      rcases List.mem_cons.mp hy with hy | hy
      · exact stepList_mono expand hmono xs acc (hy ▸ h)
      · exact ih acc y hy
    · rw [if_neg h]
      rcases List.mem_cons.mp hy with hy | hy
      · exact stepList_mono expand hmono xs _ (hy ▸ hself x acc)
      · exact ih _ y hy

/-- Soundness of the walk: a visited node was already visited, or lies in
the walked list, or is properly reachable from a member of the walked
list. -/
theorem stepList_sound (E : List (String × List String))
    (expand : String → List String → List String)
    (hexp : ∀ a acc x, x ∈ expand a acc →
      x ∈ acc ∨ x = a ∨ Relation.TransGen (EdgeStep E) a x) :
    ∀ (l acc : List String) (x : String), x ∈ stepList expand l acc →
      x ∈ acc ∨ ∃ y ∈ l, x = y ∨ Relation.TransGen (EdgeStep E) y x := by
  intro l
  induction l with
  | nil => intro acc x hx; exact Or.inl (by simpa [stepList] using hx)
  | cons a xs ih =>
    intro acc x hx
    rw [stepList] at hx
    by_cases h : a ∈ acc
    · rw [if_pos h] at hx
      rcases ih acc x hx with hx | ⟨y, hy, hxy⟩
      · exact Or.inl hx
      · exact Or.inr ⟨y, List.mem_cons_of_mem _ hy, hxy⟩
    · rw [if_neg h] at hx
      rcases ih _ x hx with hx | ⟨y, hy, hxy⟩
      · rcases hexp a acc x hx with hx | hx | hx
        · exact Or.inl hx
        · exact Or.inr ⟨a, List.mem_cons_self _ _, Or.inl hx⟩
        · exact Or.inr ⟨a, List.mem_cons_self _ _, Or.inr hx⟩
      · exact Or.inr ⟨y, List.mem_cons_of_mem _ hy, hxy⟩

theorem expandFuel_sound (E : List (String × List String)) :
    ∀ (fuel : Nat) (a : String) (acc : List String) (x : String),
      x ∈ expandFuel E fuel a acc →
      x ∈ acc ∨ x = a ∨ Relation.TransGen (EdgeStep E) a x := by
  intro fuel
  induction fuel with
  | zero =>
    intro a acc x hx
    rcases List.mem_cons.mp hx with hx | hx
    · exact Or.inr (Or.inl hx)
    · exact Or.inl hx
  | succ n ihn =>
    intro a acc x hx
    rcases stepList_sound E (expandFuel E n) (ihn) _ _ x hx with hx | ⟨y, hy, hxy⟩
    · rcases List.mem_cons.mp hx with hx | hx
      · exact Or.inr (Or.inl hx)
      · exact Or.inl hx
    · rcases hxy with hxy | hxy
      · exact Or.inr (Or.inr (Relation.TransGen.single (hxy ▸ hy)))
      · exact Or.inr (Or.inr (Relation.TransGen.head hy hxy))

/-- Every successor mentioned anywhere in the adjacency map lies in
`allTargets`. -/
theorem succs_subset_allTargets (E : List (String × List String)) (a : String) :
    ∀ y ∈ FlowGraph.succs E a, y ∈ allTargets E := by
  intro y hy
  rw [FlowGraph.succs] at hy
  cases hlk : alookup E a with
  | none => rw [hlk] at hy; simp at hy
  | some l =>
    rw [hlk] at hy
    simp only [Option.getD_some] at hy
    have hmem : (a, l) ∈ E := alookup_mem E a l hlk
    rw [allTargets]
    exact List.mem_flatten.mpr ⟨l, List.mem_map.mpr ⟨(a, l), hmem, rfl⟩, hy⟩

/-- The closure property of the walk, by induction on the fuel: once the
fuel dominates the number of unvisited target ids, every node the walk
visits is either previously visited or fully expanded (all its successors
visited too). -/
theorem stepList_expandFuel_closed (E : List (String × List String)) :
    ∀ fuel : Nat,
      (∀ (a : String) (acc : List String), a ∈ allTargets E → a ∉ acc →
        ((allTargets E).toFinset \ acc.toFinset).card ≤ fuel →
        (∀ z ∈ expandFuel E fuel a acc, z ∈ acc ∨ z = a ∨
          ∀ w ∈ FlowGraph.succs E z, w ∈ expandFuel E fuel a acc) ∧
        (∀ w ∈ FlowGraph.succs E a, w ∈ expandFuel E fuel a acc)) ∧
      (∀ (l acc : List String),
        (∀ y ∈ l, y ∈ allTargets E) →
        ((allTargets E).toFinset \ acc.toFinset).card ≤ fuel →
        ∀ z ∈ stepList (expandFuel E fuel) l acc, z ∈ acc ∨
          ∀ w ∈ FlowGraph.succs E z, w ∈ stepList (expandFuel E fuel) l acc) := by
  have hcard_mem : ∀ (a : String) (acc : List String), a ∈ allTargets E →
      a ∉ acc → 1 ≤ ((allTargets E).toFinset \ acc.toFinset).card := by
    intro a acc ha hna
    refine Finset.card_pos.mpr ⟨a, ?_⟩
    rw [Finset.mem_sdiff]
    exact ⟨List.mem_toFinset.mpr ha, fun hc => hna (List.mem_toFinset.mp hc)⟩
  have hcard_cons : ∀ (a : String) (acc : List String), a ∈ allTargets E →
      a ∉ acc →
      ((allTargets E).toFinset \ (a :: acc).toFinset).card =
        ((allTargets E).toFinset \ acc.toFinset).card - 1 := by
    intro a acc ha hna
    rw [List.toFinset_cons, Finset.sdiff_insert, Finset.card_erase_of_mem]
    rw [Finset.mem_sdiff]
    exact ⟨List.mem_toFinset.mpr ha, fun hc => hna (List.mem_toFinset.mp hc)⟩
  have hcard_sub : ∀ (acc acc' : List String), acc ⊆ acc' →
      ((allTargets E).toFinset \ acc'.toFinset).card ≤
        ((allTargets E).toFinset \ acc.toFinset).card := by
    intro acc acc' hsub
    refine Finset.card_le_card (Finset.sdiff_subset_sdiff (le_refl _) ?_)
    intro a ha
    exact List.mem_toFinset.mpr (hsub (List.mem_toFinset.mp ha))
  have c_of_ce : ∀ fuel : Nat,
      (∀ (a : String) (acc : List String), a ∈ allTargets E → a ∉ acc →
        ((allTargets E).toFinset \ acc.toFinset).card ≤ fuel →
        (∀ z ∈ expandFuel E fuel a acc, z ∈ acc ∨ z = a ∨
          ∀ w ∈ FlowGraph.succs E z, w ∈ expandFuel E fuel a acc) ∧
        (∀ w ∈ FlowGraph.succs E a, w ∈ expandFuel E fuel a acc)) →
      ∀ (l acc : List String),
        (∀ y ∈ l, y ∈ allTargets E) →
        ((allTargets E).toFinset \ acc.toFinset).card ≤ fuel →
        ∀ z ∈ stepList (expandFuel E fuel) l acc, z ∈ acc ∨
          ∀ w ∈ FlowGraph.succs E z, w ∈ stepList (expandFuel E fuel) l acc := by
    intro fuel hce l
    induction l with
    | nil =>
      intro acc _ _ z hz
      exact Or.inl (by simpa [stepList] using hz)
    | cons a xs ih =>
      intro acc hl hcard z hz
      rw [stepList] at hz ⊢
      by_cases h : a ∈ acc
      · rw [if_pos h] at hz ⊢
        exact ih acc (fun y hy => hl y (List.mem_cons_of_mem _ hy)) hcard z hz
      · rw [if_neg h] at hz ⊢
        have haU : a ∈ allTargets E := hl a (List.mem_cons_self _ _)
        obtain ⟨hcl, hsucc⟩ := hce a acc haU h hcard
        have hacc' : (a :: acc) ⊆ expandFuel E fuel a acc := by
          intro b hb
          rcases List.mem_cons.mp hb with hb | hb
          · exact hb ▸ mem_expandFuel_self E fuel a acc
          · exact expandFuel_mono E fuel a acc hb
        rcases ih (expandFuel E fuel a acc)
          (fun y hy => hl y (List.mem_cons_of_mem _ hy)) (by
            refine le_trans (hcard_sub (a :: acc) _ hacc') ?_
            rw [hcard_cons a acc haU h]
            have := hcard_mem a acc haU h
            omega) z hz with hz' | hz'
        · rcases hcl z hz' with hz'' | hz'' | hz''
          · exact Or.inl hz''
          · subst hz''
            exact Or.inr (fun w hw =>
              stepList_mono (expandFuel E fuel) (expandFuel_mono E fuel) xs _
                (hsucc w hw))
          · exact Or.inr (fun w hw =>
              stepList_mono (expandFuel E fuel) (expandFuel_mono E fuel) xs _
                (hz'' w hw))
        · exact Or.inr hz'
  intro fuel
  induction fuel with
  | zero =>
    constructor
    · intro a acc ha hna hcard
      exact absurd (le_trans (hcard_mem a acc ha hna) hcard) (by omega)
    · intro l acc hl hcard z hz
      refine c_of_ce 0 ?_ l acc hl hcard z hz
      intro a acc' ha hna hcard'
      exact absurd (le_trans (hcard_mem a acc' ha hna) hcard') (by omega)
  | succ n ihn =>
    have hce : ∀ (a : String) (acc : List String), a ∈ allTargets E → a ∉ acc →
        ((allTargets E).toFinset \ acc.toFinset).card ≤ n + 1 →
        (∀ z ∈ expandFuel E (n + 1) a acc, z ∈ acc ∨ z = a ∨
          ∀ w ∈ FlowGraph.succs E z, w ∈ expandFuel E (n + 1) a acc) ∧
        (∀ w ∈ FlowGraph.succs E a, w ∈ expandFuel E (n + 1) a acc) := by
      intro a acc ha hna hcard
      have hcard2 : ((allTargets E).toFinset \ (a :: acc).toFinset).card ≤ n := by
        rw [hcard_cons a acc ha hna]
        have := hcard_mem a acc ha hna
        omega
      constructor
      · intro z hz
        rcases ihn.2 (FlowGraph.succs E a) (a :: acc)
          (succs_subset_allTargets E a) hcard2 z hz with hz' | hz'
        · rcases List.mem_cons.mp hz' with hz'' | hz''
          · exact Or.inr (Or.inl hz'')
          · exact Or.inl hz''
        · exact Or.inr (Or.inr hz')
      · intro w hw
        exact mem_stepList_of_mem (expandFuel E n) (expandFuel_mono E n)
          (mem_expandFuel_self E n) _ _ w hw
    exact ⟨hce, c_of_ce (n + 1) hce⟩

/-- With the fuel `prune_after` supplies, membership in the visited set is
exactly reachability from the start node's successors. -/
theorem mem_collect_iff (E : List (String × List String)) (k x : String) :
    x ∈ collect E ((allTargets E).length + 1) k [] ↔
      ReachableFromSuccs E k x := by
  have hcard : ((allTargets E).toFinset \ ([] : List String).toFinset).card ≤
      (allTargets E).length + 1 := by
    simp only [List.toFinset_nil, Finset.sdiff_empty]
    exact le_trans (List.toFinset_card_le _) (by omega)
  constructor
  · intro hx
    rcases stepList_sound E (expandFuel E ((allTargets E).length + 1))
      (expandFuel_sound E _) (FlowGraph.succs E k) [] x hx with hx | ⟨y, hy, hxy⟩
    · simp at hx
    · rcases hxy with hxy | hxy
      · exact ⟨y, hy, hxy ▸ Relation.ReflTransGen.refl⟩
      · exact ⟨y, hy, hxy.to_reflTransGen⟩
  · rintro ⟨s, hs, hpath⟩
    induction hpath with
    | refl =>
      exact mem_stepList_of_mem _ (expandFuel_mono E _)
        (mem_expandFuel_self E _) _ _ s hs
    | tail hp hstep ih =>
      rename_i b c
      have hclosed := (stepList_expandFuel_closed E ((allTargets E).length + 1)).2
        (FlowGraph.succs E k) [] (succs_subset_allTargets E k) hcard b ih
      rcases hclosed with hb | hb
      · simp at hb
      · exact hb c hstep

/-- Counterexample to C3 as stated: on the cycle A→B→A, `prune_after A`
removes A itself (the DFS from A's successors reaches back to A), although
the claim says the node itself is always retained. -/
theorem prune_after_cycle_removes_start :
    "A" ∈ akeys (((FlowGraph.empty.add_node (mkNode "A")).add_node
        (mkNode "B")).connect "B" "A").nodes ∧
    "A" ∉ akeys ((((FlowGraph.empty.add_node (mkNode "A")).add_node
        (mkNode "B")).connect "B" "A").prune_after "A").nodes := by
  exact ⟨by decide, by decide⟩

/-- **C3 (amended).** For every graph and node id `k`, `prune_after k`
removes from the node map exactly the ids reachable from `k`'s successors
via the adjacency mapping (cycle-safely); every remaining adjacency entry
references no removed node (neither as key nor inside a successor list);
and the tail cursor resets to `k` exactly when the previous tail was
removed.  `k` itself is retained only in the acyclic case: when `k` is
reachable from its own successors (a cycle through `k`), `k` is removed
too, contrary to the original claim (see the counterexample). `entry` is
left untouched. -/
theorem prune_after_removes_reachable (g : FlowGraph) (k : String) :
    (g.prune_after k).entry = g.entry ∧
    (∀ x, ReachableFromSuccs g.edges k x →
      alookup (g.prune_after k).nodes x = none) ∧
    (∀ x, ¬ ReachableFromSuccs g.edges k x →
      alookup (g.prune_after k).nodes x = alookup g.nodes x) ∧
    (∀ s l, alookup (g.prune_after k).edges s = some l →
      ¬ ReachableFromSuccs g.edges k s ∧
        ∀ t ∈ l, ¬ ReachableFromSuccs g.edges k t) ∧
    (∀ t, g.tail = some t → ReachableFromSuccs g.edges k t →
      (g.prune_after k).tail = some k) ∧
    (∀ t, g.tail = some t → ¬ ReachableFromSuccs g.edges k t →
      (g.prune_after k).tail = some t) := by
  have hD : ∀ x, x ∈ collect g.edges ((allTargets g.edges).length + 1) k [] ↔
      ReachableFromSuccs g.edges k x := fun x => mem_collect_iff g.edges k x
  refine ⟨rfl, ?_, ?_, ?_, ?_, ?_⟩
  · intro x hx
    show alookup (g.nodes.filter _) x = none
    rw [alookup_filter_key]
    rw [if_pos ((hD x).mpr hx)]
  · intro x hx
    show alookup (g.nodes.filter _) x = alookup g.nodes x
    rw [alookup_filter_key]
    rw [if_neg (fun hc => hx ((hD x).mp hc))]
  · intro s l hl
    have hl' : (alookup (g.edges.filter (fun p => p.1 ∉
        collect g.edges ((allTargets g.edges).length + 1) k [])) s).map
        (fun ts => ts.filter (fun t => t ∉
          collect g.edges ((allTargets g.edges).length + 1) k [])) = some l := by
      rw [← alookup_map_snd]
      exact hl
    rw [alookup_filter_key] at hl'
    by_cases hs : s ∈ collect g.edges ((allTargets g.edges).length + 1) k []
    · rw [if_pos hs] at hl'
      simp [Option.map] at hl'
    · rw [if_neg hs] at hl'
      refine ⟨fun hc => hs ((hD s).mpr hc), ?_⟩
      cases hlk : alookup g.edges s with
      | none => rw [hlk] at hl'; simp [Option.map] at hl'
      | some l0 =>
        rw [hlk] at hl'
        simp only [Option.map] at hl'
        intro t ht hc
        have ht' : t ∈ l0.filter (fun t => t ∉
            collect g.edges ((allTargets g.edges).length + 1) k []) := by
          rw [Option.some_inj.mp hl']
          exact ht
        have := (List.mem_filter.mp ht').2
        simp only [decide_not, Bool.not_eq_true', decide_eq_false_iff_not] at this
        exact this ((hD t).mpr hc)
  · intro t ht hr
    show (match g.tail with
      | some t => if t ∈ collect g.edges ((allTargets g.edges).length + 1) k []
          then some k else some t
      | none => none) = some k
    rw [ht]
    dsimp only
    rw [if_pos ((hD t).mpr hr)]
  · intro t ht hr
    show (match g.tail with
      | some t => if t ∈ collect g.edges ((allTargets g.edges).length + 1) k []
          then some k else some t
      | none => none) = some t
    rw [ht]
    dsimp only
    rw [if_neg (fun hc => hr ((hD t).mp hc))]

/-- Witness for C3: on the concrete path graph a→b, pruning after `a`
removes exactly `b`, keeps `a`, and resets the tail to `a`. -/
theorem prune_after_removes_reachable_witness :
    alookup (((FlowGraph.empty.add_node (mkNode "a")).add_node
        (mkNode "b")).prune_after "a").nodes "b" = none ∧
    alookup (((FlowGraph.empty.add_node (mkNode "a")).add_node
        (mkNode "b")).prune_after "a").nodes "a" =
      alookup ((FlowGraph.empty.add_node (mkNode "a")).add_node
        (mkNode "b")).nodes "a" ∧
    (((FlowGraph.empty.add_node (mkNode "a")).add_node
        (mkNode "b")).prune_after "a").tail = some "a" := by
  have h := prune_after_removes_reachable
    ((FlowGraph.empty.add_node (mkNode "a")).add_node (mkNode "b")) "a"
  have hreach : ReachableFromSuccs
      ((FlowGraph.empty.add_node (mkNode "a")).add_node (mkNode "b")).edges
      "a" "b" := ⟨"b", by decide, Relation.ReflTransGen.refl⟩
  have hnreach : ¬ ReachableFromSuccs
      ((FlowGraph.empty.add_node (mkNode "a")).add_node (mkNode "b")).edges
      "a" "a" := by
    rintro ⟨s, hs, hpath⟩
    have hsa : FlowGraph.succs
        ((FlowGraph.empty.add_node (mkNode "a")).add_node (mkNode "b")).edges
        "a" = ["b"] := by decide
    have hsb : FlowGraph.succs
        ((FlowGraph.empty.add_node (mkNode "a")).add_node (mkNode "b")).edges
        "b" = [] := by decide
    rw [hsa] at hs
    have hs' : s = "b" := by simpa using hs
    subst hs'
    rcases Relation.reflTransGen_iff_eq_or_transGen.mp hpath with h | h
    · exact absurd h (by decide)
    · rcases Relation.TransGen.head'_iff.mp h with ⟨c, hc, _⟩
      rw [EdgeStep, hsb] at hc
      simp at hc
  exact ⟨h.2.1 "b" hreach, h.2.2.1 "a" hnreach, h.2.2.2.2.1 "b" (by decide) hreach⟩
